import Mathlib

/-!
Verification of the berserk HTTP/format layer (src/berserk/formats.py,
src/berserk/session.py, src/berserk/exceptions.py, src/berserk/utils.py,
src/berserk/models.py) against its natural-language specification.

Python strings are modelled as `List Char` (type alias `Str`).  Python
generators are modelled as the lists of their elements; an element produced
by a fallible decoder is an `Option` (with `none` standing for the decoder
raising at that point of the stream).
-/

namespace Berserk

/-- Python strings, modelled as lists of characters. -/
abbrev Str := List Char

/-- Whitespace characters stripped by Python `str.strip()` (ASCII fragment:
space, tab, newline, carriage return, vertical tab, form feed). -/
def pyIsSpace (c : Char) : Bool :=
  c = ' ' || c = '\t' || c = '\n' || c = '\r' || c = '\x0b' || c = '\x0c'

/-- Python `str.strip()`: remove leading and trailing whitespace. -/
def pyStrip (s : Str) : Str :=
  ((s.dropWhile pyIsSpace).reverse.dropWhile pyIsSpace).reverse

/-- Python `"\n".join(lines)`. -/
def joinNl : List Str → Str
  | [] => []
  | [l] => l
  | l :: ls => l ++ '\n' :: joinNl ls

/-- Helper for `pySplitlines`: prepend a character to the first line of an
already-split tail. -/
def consHead (c : Char) : List Str → List Str
  | [] => [[c]]
  | l :: ls => (c :: l) :: ls

/-- Python `str.splitlines()` restricted to the `\n`, `\r\n` and `\r` line
terminators (the ones occurring in HTTP bodies); this is the line splitting
performed by `requests.Response.iter_lines`, which berserk's stream parsers
iterate over.  A trailing terminator does not produce a final empty line. -/
def pySplitlines : Str → List Str
  | [] => []
  | [c] => if c = '\n' ∨ c = '\r' then [[]] else [[c]]
  | c :: c2 :: rest =>
    if c = '\n' then [] :: pySplitlines (c2 :: rest)
    else if c = '\r' then
      if c2 = '\n' then [] :: pySplitlines rest
      else [] :: pySplitlines (c2 :: rest)
    else consHead c (pySplitlines (c2 :: rest))

/-- A character is a line terminator for `pySplitlines`. -/
def isLineTerm (c : Char) : Bool := c = '\n' || c = '\r'

theorem pySplitlines_append_newline (l : Str) (rest : Str)
    (hl : ∀ c ∈ l, isLineTerm c = false) :
    pySplitlines (l ++ '\n' :: rest) = l :: pySplitlines rest := by
  induction l with
  | nil =>
    cases rest with
    | nil => simp [pySplitlines]
    | cons c2 r => simp [pySplitlines]
  | cons c l ih =>
    have hc := hl c (List.mem_cons_self c l)
    simp only [isLineTerm, Bool.or_eq_false_iff, decide_eq_false_iff_not] at hc
    have ih' := ih (fun d hd => hl d (List.mem_cons_of_mem c hd))
    obtain ⟨c2, rest2, h2⟩ : ∃ c2 rest2, l ++ '\n' :: rest = c2 :: rest2 := by
      cases l with
      | nil => exact ⟨'\n', rest, rfl⟩
      | cons x xs => exact ⟨x, xs ++ '\n' :: rest, rfl⟩
    rw [List.cons_append, h2]
    simp only [pySplitlines, hc.1, hc.2, if_false]
    rw [← h2, ih']
    simp [consHead]

theorem pySplitlines_single (l : Str) (hne : l ≠ [])
    (hl : ∀ c ∈ l, isLineTerm c = false) :
    pySplitlines l = [l] := by
  induction l with
  | nil => exact absurd rfl hne
  | cons c l ih =>
    have hc := hl c (List.mem_cons_self c l)
    simp only [isLineTerm, Bool.or_eq_false_iff, decide_eq_false_iff_not] at hc
    cases l with
    | nil => simp [pySplitlines, hc.1, hc.2]
    | cons c2 l2 =>
      have ih' := ih (by simp) (fun d hd => hl d (List.mem_cons_of_mem c hd))
      simp [pySplitlines, hc.1, hc.2, ih', consHead]

/-- Splitting the `\n`-join of a list of terminator-free lines recovers the
lines, provided the last line is non-empty (a trailing empty line would be
swallowed by `splitlines`). -/
theorem pySplitlines_joinNl (ls : List Str) (hne : ls ≠ [])
    (hl : ∀ l ∈ ls, ∀ c ∈ l, isLineTerm c = false)
    (hlast : ls.getLast hne ≠ []) :
    pySplitlines (joinNl ls) = ls := by
  induction ls with
  | nil => exact absurd rfl hne
  | cons l ls ih =>
    cases ls with
    | nil =>
      simp only [joinNl]
      exact pySplitlines_single l (by simpa using hlast) (hl l (by simp))
    | cons l2 ls2 =>
      have hjoin : joinNl (l :: l2 :: ls2) = l ++ '\n' :: joinNl (l2 :: ls2) := rfl
      rw [hjoin, pySplitlines_append_newline l _ (hl l (by simp))]
      have hlast' : (l2 :: ls2).getLast (by simp) ≠ [] := by
        simpa [List.getLast_cons] using hlast
      rw [ih (by simp) (fun m hm c hc => hl m (List.mem_cons_of_mem l hm) c hc) hlast']

theorem joinNl_cons (l : Str) (ls : List Str) (h : ls ≠ []) :
    joinNl (l :: ls) = l ++ '\n' :: joinNl ls := by
  cases ls with
  | nil => exact absurd rfl h
  | cons y t => rfl

/-- `\n`-joining distributes over append of two non-empty lists of lines. -/
theorem joinNl_append (a b : List Str) (ha : a ≠ []) (hb : b ≠ []) :
    joinNl (a ++ b) = joinNl a ++ '\n' :: joinNl b := by
  induction a with
  | nil => exact absurd rfl ha
  | cons l a ih =>
    by_cases ha' : a = []
    · subst ha'
      rw [show ([l] ++ b) = l :: b from rfl, joinNl_cons l b hb]
      rfl
    · rw [List.cons_append, joinNl_cons l (a ++ b) (by simp [ha']),
        joinNl_cons l a ha', ih ha']
      simp

theorem pyStrip_append_space (s : Str) (c : Char) (hc : pyIsSpace c = true) :
    pyStrip (s ++ [c]) = pyStrip s := by
  unfold pyStrip
  rw [List.dropWhile_append]
  by_cases h : (s.dropWhile pyIsSpace).isEmpty
  · simp only [h, if_true]
    simp only [List.isEmpty_iff] at h
    simp [h, List.dropWhile, hc]
  · simp only [h, if_false]
    simp [List.dropWhile, hc]

/-! ## JSON values

The value space of Python's `json` module (the integer-numbered fragment:
floats are out of the scope of the properties verified here).  `null` doubles as Python `None`. -/

mutual
inductive Json where
  | null : Json
  | bool (b : Bool) : Json
  | num (n : Int) : Json
  | str (s : Str) : Json
  | arr (elems : JsonItems) : Json
  | obj (members : JsonMembers) : Json
  deriving DecidableEq

inductive JsonItems where
  | nil : JsonItems
  | cons (hd : Json) (tl : JsonItems) : JsonItems
  deriving DecidableEq

inductive JsonMembers where
  | nil : JsonMembers
  | cons (key : Str) (val : Json) (tl : JsonMembers) : JsonMembers
  deriving DecidableEq
end

/-! ## Decimal digits (Python `str(int)` and JSON number parsing) -/

/-- Fuel-driven digit extraction (the fuel keeps the recursion
structural). -/
def natRevDigitsGo : Nat → Nat → Str
  | _, 0 => []
  | 0, _ + 1 => []
  | fuel + 1, n + 1 =>
    Nat.digitChar ((n + 1) % 10) :: natRevDigitsGo fuel ((n + 1) / 10)

/-- The decimal digits of a positive number, least significant first. -/
def natRevDigits (n : Nat) : Str := natRevDigitsGo n n

theorem natRevDigitsGo_fuel : ∀ (n f1 f2 : Nat), n ≤ f1 → n ≤ f2 →
    natRevDigitsGo f1 n = natRevDigitsGo f2 n := by
  intro n
  induction n using Nat.strong_induction_on with
  | _ n ih =>
    intro f1 f2 h1 h2
    cases n with
    | zero => cases f1 <;> cases f2 <;> rfl
    | succ m =>
      cases f1 with
      | zero => omega
      | succ g1 =>
        cases f2 with
        | zero => omega
        | succ g2 =>
          simp only [natRevDigitsGo]
          rw [ih ((m + 1) / 10) (Nat.div_lt_self (Nat.succ_pos m) (by omega))
            g1 g2 (by omega) (by omega)]

theorem natRevDigits_succ (n : Nat) (h : n ≠ 0) :
    natRevDigits n = Nat.digitChar (n % 10) :: natRevDigits (n / 10) := by
  cases n with
  | zero => exact absurd rfl h
  | succ m =>
    show natRevDigitsGo (m + 1) (m + 1) = _
    rw [show natRevDigitsGo (m + 1) (m + 1)
        = Nat.digitChar ((m + 1) % 10) :: natRevDigitsGo m ((m + 1) / 10)
      from rfl]
    rw [natRevDigitsGo_fuel ((m + 1) / 10) m ((m + 1) / 10)
      (by omega) (le_refl _)]
    rfl

/-- Python `str(n)` for a natural number. -/
def natChars (n : Nat) : Str :=
  if n = 0 then ['0'] else (natRevDigits n).reverse

/-- Python `str(n)` for an integer. -/
def intChars (n : Int) : Str :=
  if n < 0 then '-' :: natChars n.natAbs else natChars n.toNat

/-- Numeric value of a string of decimal digits. -/
def digitsVal (s : Str) : Nat :=
  s.foldl (fun a c => a * 10 + (c.toNat - 48)) 0

theorem digitsVal_append (s : Str) (c : Char) :
    digitsVal (s ++ [c]) = digitsVal s * 10 + (c.toNat - 48) := by
  simp [digitsVal, List.foldl_append]

theorem digitChar_isDigit {d : Nat} (h : d < 10) :
    (Nat.digitChar d).isDigit = true := by
  interval_cases d <;> decide

theorem digitChar_toNat {d : Nat} (h : d < 10) :
    (Nat.digitChar d).toNat - 48 = d := by
  interval_cases d <;> decide

theorem natRevDigits_ne_nil {n : Nat} (h : n ≠ 0) : natRevDigits n ≠ [] := by
  rw [natRevDigits_succ n h]
  simp

theorem natRevDigits_digits (n : Nat) :
    ∀ c ∈ natRevDigits n, c.isDigit = true := by
  induction n using Nat.strong_induction_on with
  | _ n ih =>
    cases n with
    | zero => intro c hc; simp [natRevDigits, natRevDigitsGo] at hc
    | succ m =>
      intro c hc
      rw [natRevDigits_succ (m + 1) (by omega)] at hc
      rcases List.mem_cons.mp hc with h | h
      · subst h
        exact digitChar_isDigit (Nat.mod_lt _ (by omega))
      · exact ih ((m + 1) / 10) (Nat.div_lt_self (Nat.succ_pos m) (by omega)) c h

theorem digitsVal_natRevDigits (n : Nat) :
    digitsVal (natRevDigits n).reverse = n := by
  induction n using Nat.strong_induction_on with
  | _ n ih =>
    cases n with
    | zero => simp [natRevDigits, natRevDigitsGo, digitsVal]
    | succ m =>
      rw [natRevDigits_succ (m + 1) (by omega), List.reverse_cons, digitsVal_append,
        ih ((m + 1) / 10) (Nat.div_lt_self (Nat.succ_pos m) (by omega)),
        digitChar_toNat (Nat.mod_lt _ (by omega))]
      omega

theorem natChars_digits (n : Nat) : ∀ c ∈ natChars n, c.isDigit = true := by
  unfold natChars
  split
  · intro c hc
    simp at hc
    subst hc
    decide
  · intro c hc
    exact natRevDigits_digits n c (List.mem_reverse.mp hc)

theorem natChars_ne_nil (n : Nat) : natChars n ≠ [] := by
  unfold natChars
  split
  · simp
  · simpa using natRevDigits_ne_nil (by assumption)

theorem digitsVal_natChars (n : Nat) : digitsVal (natChars n) = n := by
  unfold natChars
  split
  · simp_all [digitsVal]
  · exact digitsVal_natRevDigits n

/-! ## JSON serialization

The NDJSON properties verified below quantify over "JSON records
serialized one per line".  `Json.ser` is the canonical one-line serialization (compact
separators, strings escaping the quote, backslash and the ASCII control
characters that would break the line discipline); it is the reference
serialization those properties are stated against. -/

/-- JSON whitespace (accepted between tokens by Python's `json.loads`). -/
def jsonWs (c : Char) : Bool := c = ' ' || c = '\t' || c = '\n' || c = '\r'

/-- Escape one character of a JSON string literal. -/
def escChar (c : Char) : Str :=
  if c = '"' then ['\\', '"']
  else if c = '\\' then ['\\', '\\']
  else if c = '\n' then ['\\', 'n']
  else if c = '\r' then ['\\', 'r']
  else if c = '\t' then ['\\', 't']
  else [c]

/-- Escape the body of a JSON string literal. -/
def escChars (s : Str) : Str := s.foldr (fun c acc => escChar c ++ acc) []

mutual
/-- Serialize a JSON value on a single line. -/
def Json.ser : Json → Str
  | .null => "null".toList
  | .bool true => "true".toList
  | .bool false => "false".toList
  | .num n => intChars n
  | .str s => '"' :: escChars s ++ ['"']
  | .arr xs => '[' :: Json.serItems xs ++ [']']
  | .obj ms => '\x7b' :: Json.serMembers ms ++ ['\x7d']
termination_by structural v => v

/-- Serialize the comma-separated elements of a JSON array. -/
def Json.serItems : JsonItems → Str
  | .nil => []
  | .cons v tl => Json.ser v ++ Json.serItemsTail tl
termination_by structural v => v

/-- Serialize the remaining elements of a JSON array, each preceded by a
comma. -/
def Json.serItemsTail : JsonItems → Str
  | .nil => []
  | .cons v tl => ',' :: (Json.ser v ++ Json.serItemsTail tl)
termination_by structural v => v

/-- Serialize the comma-separated members of a JSON object. -/
def Json.serMembers : JsonMembers → Str
  | .nil => []
  | .cons k v tl =>
    '"' :: escChars k ++ '"' :: ':' :: Json.ser v ++ Json.serMembersTail tl
termination_by structural v => v

/-- Serialize the remaining members of a JSON object, each preceded by a
comma. -/
def Json.serMembersTail : JsonMembers → Str
  | .nil => []
  | .cons k v tl =>
    ',' :: ('"' :: escChars k ++ '"' :: ':' :: Json.ser v ++ Json.serMembersTail tl)
termination_by structural v => v
end

mutual
/-- Fuel lower bound sufficient for `parseVal` to parse a serialized value. -/
def Json.weight : Json → Nat
  | .null => 1
  | .bool _ => 1
  | .num _ => 1
  | .str _ => 1
  | .arr xs => 1 + Json.weightItems xs
  | .obj ms => 1 + Json.weightMembers ms
termination_by structural v => v

def Json.weightItems : JsonItems → Nat
  | .nil => 0
  | .cons v tl => 1 + Json.weight v + Json.weightItems tl
termination_by structural v => v

def Json.weightMembers : JsonMembers → Nat
  | .nil => 0
  | .cons _ v tl => 1 + Json.weight v + Json.weightMembers tl
termination_by structural v => v
end

theorem isDigit_not_ws {c : Char} (h : c.isDigit = true) :
    jsonWs c = false ∧ c ≠ ']' ∧ c ≠ '\x7d' ∧ c ≠ ',' ∧ c ≠ '-' := by
  refine ⟨?_, ?_, ?_, ?_, ?_⟩
  · by_contra hw
    rw [Bool.not_eq_false] at hw
    simp only [jsonWs, Bool.or_eq_true, decide_eq_true_eq] at hw
    rcases hw with ((rfl | rfl) | rfl) | rfl <;> exact absurd h (by decide)
  all_goals · rintro rfl; exact absurd h (by decide)

/-! ## JSON parsing

Model of Python's `json.loads` (stdlib `json` module, default decoder), on
the integer-numbered, `\uXXXX`-free fragment: recursive-descent over the
character list, whitespace-tolerant between tokens, strict about trailing
garbage.  The fuel argument is an upper bound on recursion depth; `jsonLoads`
supplies more than enough. -/

/-- Unescape the character following a backslash in a JSON string literal. -/
def unescapeChar (c : Char) : Option Char :=
  if c = '"' then some '"'
  else if c = '\\' then some '\\'
  else if c = '/' then some '/'
  else if c = 'n' then some '\n'
  else if c = 't' then some '\t'
  else if c = 'r' then some '\r'
  else if c = 'b' then some '\x08'
  else if c = 'f' then some '\x0c'
  else none

/-- Parse the body of a JSON string literal (after the opening quote), up to
and including the closing quote. -/
def parseStrBody : Str → Option (Str × Str)
  | [] => none
  | [c] => if c = '"' then some ([], []) else none
  | c :: c2 :: r2 =>
    if c = '"' then some ([], c2 :: r2)
    else if c = '\\' then do
      let u ← unescapeChar c2
      let (cs, r3) ← parseStrBody r2
      pure (u :: cs, r3)
    else do
      let (cs, r3) ← parseStrBody (c2 :: r2)
      pure (c :: cs, r3)

/-- Parse a non-empty run of decimal digits. -/
def parseDigits (s : Str) : Option (Nat × Str) :=
  let ds := s.takeWhile Char.isDigit
  if ds.isEmpty then none else some (digitsVal ds, s.dropWhile Char.isDigit)

/-- Parse a JSON number (integer fragment). -/
def parseNum : Str → Option (Json × Str)
  | [] => none
  | c :: r =>
    if c = '-' then (parseDigits r).map fun p => (Json.num (-(p.1 : Int)), p.2)
    else (parseDigits (c :: r)).map fun p => (Json.num (p.1 : Int), p.2)

mutual
/-- Parse one JSON value, skipping leading whitespace. -/
def parseVal : Nat → Str → Option (Json × Str)
  | 0, _ => none
  | f + 1, s =>
    match s.dropWhile jsonWs with
    | [] => none
    | c :: r =>
      if c = 'n' then
        if ['u', 'l', 'l'].isPrefixOf r then some (.null, r.drop 3) else none
      else if c = 't' then
        if ['r', 'u', 'e'].isPrefixOf r then some (.bool true, r.drop 3) else none
      else if c = 'f' then
        if ['a', 'l', 's', 'e'].isPrefixOf r then some (.bool false, r.drop 4)
        else none
      else if c = '"' then (parseStrBody r).map fun p => (.str p.1, p.2)
      else if c = '[' then
        let r1 := r.dropWhile jsonWs
        if r1.head? = some ']' then some (.arr .nil, r1.tail)
        else (parseItems f r1).map fun p => (.arr p.1, p.2)
      else if c = '\x7b' then
        let r1 := r.dropWhile jsonWs
        if r1.head? = some '\x7d' then some (.obj .nil, r1.tail)
        else (parseMembers f r1).map fun p => (.obj p.1, p.2)
      else parseNum (c :: r)

/-- Parse the non-empty comma-separated elements of a JSON array, up to and
including the closing bracket. -/
def parseItems : Nat → Str → Option (JsonItems × Str)
  | 0, _ => none
  | f + 1, s => do
    let (v, r) ← parseVal f s
    let r1 := r.dropWhile jsonWs
    if r1.head? = some ',' then do
      let (vs, r2) ← parseItems f r1.tail
      pure (.cons v vs, r2)
    else if r1.head? = some ']' then pure (.cons v .nil, r1.tail)
    else none

/-- Parse the non-empty comma-separated members of a JSON object, up to and
including the closing brace. -/
def parseMembers : Nat → Str → Option (JsonMembers × Str)
  | 0, _ => none
  | f + 1, s =>
    match s.dropWhile jsonWs with
    | c :: r =>
      if c = '"' then do
        let (k, r1) ← parseStrBody r
        let r2 := r1.dropWhile jsonWs
        if r2.head? = some ':' then do
          let (v, r3) ← parseVal f r2.tail
          let r4 := r3.dropWhile jsonWs
          if r4.head? = some ',' then do
            let (ms, r5) ← parseMembers f r4.tail
            pure (.cons k v ms, r5)
          else if r4.head? = some '\x7d' then pure (.cons k v .nil, r4.tail)
          else none
        else none
      else none
    | [] => none
end

/-- Model of Python's `json.loads`: parse one document, requiring the rest
of the input to be whitespace.  `none` models a raised `JSONDecodeError`. -/
def jsonLoads (s : Str) : Option Json :=
  match parseVal (s.length + 1) s with
  | some (v, rest) => if rest.dropWhile jsonWs = [] then some v else none
  | none => none

/-! ## Round trip: parsing a serialized value -/

/-- Whether a string starts with a decimal digit (used to delimit a parsed
number from what follows it). -/
def headIsDigit : Str → Bool
  | [] => false
  | c :: _ => c.isDigit

theorem weight_pos (v : Json) : 1 ≤ Json.weight v := by
  cases v <;> simp [Json.weight]

theorem ser_head (v : Json) :
    ∃ c r, Json.ser v = c :: r ∧ jsonWs c = false ∧ c ≠ ']' ∧ c ≠ '\x7d' := by
  cases v with
  | null => exact ⟨'n', _, rfl, by decide, by decide, by decide⟩
  | bool b =>
    cases b
    · exact ⟨'f', _, rfl, by decide, by decide, by decide⟩
    · exact ⟨'t', _, rfl, by decide, by decide, by decide⟩
  | num n =>
    by_cases h : n < 0
    · exact ⟨'-', natChars n.natAbs, by simp [Json.ser, intChars, h], by decide,
        by decide, by decide⟩
    · obtain ⟨c, cs, hc⟩ := List.exists_cons_of_ne_nil (natChars_ne_nil n.toNat)
      have hd : c.isDigit = true := natChars_digits n.toNat c (hc ▸ List.mem_cons_self c cs)
      obtain ⟨h1, h2, h3, _, _⟩ := isDigit_not_ws hd
      exact ⟨c, cs, by simp [Json.ser, intChars, h, hc], h1, h2, h3⟩
  | str s => exact ⟨'"', _, rfl, by decide, by decide, by decide⟩
  | arr xs => exact ⟨'[', _, rfl, by decide, by decide, by decide⟩
  | obj ms => exact ⟨'\x7b', _, rfl, by decide, by decide, by decide⟩

theorem dropWhile_ser_append (v : Json) (rest : Str) :
    (Json.ser v ++ rest).dropWhile jsonWs = Json.ser v ++ rest := by
  obtain ⟨c, r, hc, hws, _, _⟩ := ser_head v
  rw [hc]
  simp [List.dropWhile, hws]

theorem ser_ne_nil (v : Json) : Json.ser v ≠ [] := by
  obtain ⟨c, r, hc, _, _, _⟩ := ser_head v
  simp [hc]

theorem headIsDigit_ser_tail_items (tl : JsonItems) (rest : Str) :
    headIsDigit (Json.serItemsTail tl ++ ']' :: rest) = false := by
  cases tl <;> simp [Json.serItemsTail, headIsDigit]

theorem headIsDigit_ser_tail_members (tl : JsonMembers) (rest : Str) :
    headIsDigit (Json.serMembersTail tl ++ '\x7d' :: rest) = false := by
  cases tl <;> simp [Json.serMembersTail, headIsDigit]

theorem dropWhile_ser_tail_items (tl : JsonItems) (rest : Str) :
    (Json.serItemsTail tl ++ ']' :: rest).dropWhile jsonWs =
      Json.serItemsTail tl ++ ']' :: rest := by
  cases tl <;> simp [Json.serItemsTail, List.dropWhile, jsonWs]

theorem dropWhile_ser_tail_members (tl : JsonMembers) (rest : Str) :
    (Json.serMembersTail tl ++ '\x7d' :: rest).dropWhile jsonWs =
      Json.serMembersTail tl ++ '\x7d' :: rest := by
  cases tl <;> simp [Json.serMembersTail, List.dropWhile, jsonWs]

theorem takeWhile_digits_append (ds rest : Str) (hds : ∀ c ∈ ds, c.isDigit = true)
    (hrest : headIsDigit rest = false) :
    (ds ++ rest).takeWhile Char.isDigit = ds ∧
      (ds ++ rest).dropWhile Char.isDigit = rest := by
  induction ds with
  | nil =>
    cases rest with
    | nil => simp
    | cons c r =>
      simp only [headIsDigit] at hrest
      simp [List.takeWhile, List.dropWhile, hrest]
  | cons d ds ih =>
    have hd := hds d (List.mem_cons_self d ds)
    have ih' := ih (fun c hc => hds c (List.mem_cons_of_mem d hc))
    simp [List.takeWhile, List.dropWhile, hd, ih'.1, ih'.2]

theorem parseStrBody_esc (s rest : Str) :
    parseStrBody (escChars s ++ '"' :: rest) = some (s, rest) := by
  induction s with
  | nil =>
    rw [show escChars [] ++ '"' :: rest = '"' :: rest from rfl]
    cases rest with
    | nil => simp [parseStrBody]
    | cons x xs => simp [parseStrBody]
  | cons c s ih =>
    have hesc : escChars (c :: s) = escChar c ++ escChars s := rfl
    rw [hesc]
    by_cases h1 : c = '"'
    · subst h1
      rw [show escChar '"' ++ escChars s ++ '"' :: rest
            = '\\' :: '"' :: (escChars s ++ '"' :: rest) from rfl]
      simp [parseStrBody, unescapeChar, ih]
    · by_cases h2 : c = '\\'
      · subst h2
        rw [show escChar '\\' ++ escChars s ++ '"' :: rest
              = '\\' :: '\\' :: (escChars s ++ '"' :: rest) from rfl]
        simp [parseStrBody, unescapeChar, ih]
      · by_cases h3 : c = '\n'
        · subst h3
          rw [show escChar '\n' ++ escChars s ++ '"' :: rest
                = '\\' :: 'n' :: (escChars s ++ '"' :: rest) from rfl]
          simp [parseStrBody, unescapeChar, ih]
        · by_cases h4 : c = '\r'
          · subst h4
            rw [show escChar '\r' ++ escChars s ++ '"' :: rest
                  = '\\' :: 'r' :: (escChars s ++ '"' :: rest) from rfl]
            simp [parseStrBody, unescapeChar, ih]
          · by_cases h5 : c = '\t'
            · subst h5
              rw [show escChar '\t' ++ escChars s ++ '"' :: rest
                    = '\\' :: 't' :: (escChars s ++ '"' :: rest) from rfl]
              simp [parseStrBody, unescapeChar, ih]
            · rw [show escChar c ++ escChars s ++ '"' :: rest
                    = c :: (escChars s ++ '"' :: rest) by
                  simp [escChar, h1, h2, h3, h4, h5]]
              obtain ⟨c2, r2, hsh⟩ :
                  ∃ c2 r2, escChars s ++ '"' :: rest = c2 :: r2 := by
                cases hes : escChars s with
                | nil => exact ⟨'"', rest, by simp [hes]⟩
                | cons x xs => exact ⟨x, xs ++ '"' :: rest, by simp [hes]⟩
              rw [hsh]
              simp only [parseStrBody, h1, h2, if_false]
              rw [← hsh, ih]
              rfl

theorem parseDigits_natChars (m : Nat) (rest : Str)
    (hrest : headIsDigit rest = false) :
    parseDigits (natChars m ++ rest) = some (m, rest) := by
  have htd := takeWhile_digits_append (natChars m) rest (natChars_digits m) hrest
  have hne : (natChars m).isEmpty = false := by
    simpa [List.isEmpty_iff] using natChars_ne_nil m
  unfold parseDigits
  simp only [htd.1, htd.2, hne, Bool.false_eq_true, if_false,
    digitsVal_natChars]

theorem parseNum_intChars (n : Int) (rest : Str)
    (hrest : headIsDigit rest = false) :
    parseNum (intChars n ++ rest) = some (Json.num n, rest) := by
  by_cases h : n < 0
  · have heq : intChars n ++ rest = '-' :: (natChars n.natAbs ++ rest) := by
      simp [intChars, h]
    rw [heq, parseNum, if_pos rfl, parseDigits_natChars n.natAbs rest hrest,
      Option.map_some']
    have hval : -((n.natAbs : Int)) = n := by omega
    rw [hval]
  · obtain ⟨c, cs, hc⟩ := List.exists_cons_of_ne_nil (natChars_ne_nil n.toNat)
    have hd : c.isDigit = true :=
      natChars_digits n.toNat c (hc ▸ List.mem_cons_self c cs)
    have hcne : c ≠ '-' := (isDigit_not_ws hd).2.2.2.2
    have heq : intChars n ++ rest = c :: (cs ++ rest) := by
      simp [intChars, h, hc]
    have heq2 : c :: (cs ++ rest) = natChars n.toNat ++ rest := by
      rw [← List.cons_append, ← hc]
    rw [heq, parseNum, if_neg hcne, heq2,
      parseDigits_natChars n.toNat rest hrest, Option.map_some']
    have hval : ((n.toNat : Int)) = n := by omega
    rw [hval]


theorem isDigit_not_lit {c : Char} (h : c.isDigit = true) :
    c ≠ 'n' ∧ c ≠ 't' ∧ c ≠ 'f' ∧ c ≠ '"' ∧ c ≠ '[' ∧ c ≠ '\x7b' := by
  refine ⟨?_, ?_, ?_, ?_, ?_, ?_⟩ <;> · rintro rfl; exact absurd h (by decide)

theorem intChars_head (n : Int) :
    ∃ c cs, intChars n = c :: cs ∧ jsonWs c = false ∧
      c ≠ 'n' ∧ c ≠ 't' ∧ c ≠ 'f' ∧ c ≠ '"' ∧ c ≠ '[' ∧ c ≠ '\x7b' := by
  by_cases h : n < 0
  · exact ⟨'-', natChars n.natAbs, by simp [intChars, h], by decide, by decide,
      by decide, by decide, by decide, by decide, by decide⟩
  · obtain ⟨c, cs, hc⟩ := List.exists_cons_of_ne_nil (natChars_ne_nil n.toNat)
    have hd : c.isDigit = true :=
      natChars_digits n.toNat c (hc ▸ List.mem_cons_self c cs)
    obtain ⟨g1, g2, g3, g4, g5, g6⟩ := isDigit_not_lit hd
    exact ⟨c, cs, by simp [intChars, h, hc], (isDigit_not_ws hd).1,
      g1, g2, g3, g4, g5, g6⟩

mutual
theorem parseVal_ser : ∀ (f : Nat) (v : Json) (rest : Str),
    Json.weight v ≤ f → headIsDigit rest = false →
    parseVal f (Json.ser v ++ rest) = some (v, rest)
  | 0, v, rest, hf, _ => absurd (le_trans (weight_pos v) hf) (by omega)
  | f + 1, v, rest, hf, hrest => by
    have hdrop := dropWhile_ser_append v rest
    rw [parseVal.eq_def]
    cases v with
    | null =>
      rw [show Json.ser .null ++ rest = 'n' :: 'u' :: 'l' :: 'l' :: rest
        from rfl] at hdrop ⊢
      simp [hdrop, List.isPrefixOf]
    | bool b =>
      cases b
      · rw [show Json.ser (.bool false) ++ rest
            = 'f' :: 'a' :: 'l' :: 's' :: 'e' :: rest from rfl] at hdrop ⊢
        simp [hdrop, List.isPrefixOf]
      · rw [show Json.ser (.bool true) ++ rest
            = 't' :: 'r' :: 'u' :: 'e' :: rest from rfl] at hdrop ⊢
        simp [hdrop, List.isPrefixOf]
    | num n =>
      obtain ⟨c, cs, hc, hws, g1, g2, g3, g4, g5, g6⟩ := intChars_head n
      have hs : Json.ser (.num n) ++ rest = c :: (cs ++ rest) := by
        rw [show Json.ser (.num n) = intChars n from rfl, hc, List.cons_append]
      rw [hs]
      have hdw : List.dropWhile jsonWs (c :: (cs ++ rest)) = c :: (cs ++ rest) := by
        simp [List.dropWhile, hws]
      simp only [hdw, g1, g2, g3, g4, g5, g6, if_false]
      rw [← List.cons_append, ← hc]
      exact parseNum_intChars n rest hrest
    | str s =>
      have hs : Json.ser (.str s) ++ rest = '"' :: (escChars s ++ '"' :: rest) := by
        rw [show Json.ser (.str s) = '"' :: escChars s ++ ['"'] from rfl]
        simp
      rw [hs]
      simp [List.dropWhile, jsonWs, parseStrBody_esc]
    | arr xs =>
      cases xs with
      | nil =>
        have hs : Json.ser (.arr .nil) ++ rest = '[' :: ']' :: rest := by
          simp [Json.ser, Json.serItems]
        rw [hs]
        simp [List.dropWhile, jsonWs]
      | cons v tl =>
        have hs : Json.ser (.arr (.cons v tl)) ++ rest
            = '[' :: (Json.ser v ++ (Json.serItemsTail tl ++ ']' :: rest)) := by
          simp [Json.ser, Json.serItems]
        rw [hs]
        obtain ⟨c0, r0, hc0, hws0, hne0, _⟩ := ser_head v
        have hdw := dropWhile_ser_append v (Json.serItemsTail tl ++ ']' :: rest)
        have hhead : (Json.ser v ++ (Json.serItemsTail tl ++ ']' :: rest)).head?
            ≠ some ']' := by
          rw [hc0]
          simp [hne0]
        have hwi : Json.weightItems (.cons v tl) ≤ f := by
          simp [Json.weight] at hf
          omega
        have hitems := parseItems_ser f (.cons v tl) rest (by simp) hwi
        rw [show Json.serItems (.cons v tl) ++ ']' :: rest
            = Json.ser v ++ (Json.serItemsTail tl ++ ']' :: rest) by
          simp [Json.serItems]] at hitems
        simp [List.dropWhile, jsonWs, hdw, hhead, hitems]
        refine ⟨by rw [hc0]; simp [hne0], fun hnil => absurd hnil (ser_ne_nil v)⟩
    | obj ms =>
      cases ms with
      | nil =>
        have hs : Json.ser (.obj .nil) ++ rest = '\x7b' :: '\x7d' :: rest := by
          simp [Json.ser, Json.serMembers]
        rw [hs]
        simp [List.dropWhile, jsonWs]
      | cons k v tl =>
        have hs : Json.ser (.obj (.cons k v tl)) ++ rest
            = '\x7b' :: ('"' :: (escChars k ++ '"' :: ':' ::
              (Json.ser v ++ (Json.serMembersTail tl ++ '\x7d' :: rest)))) := by
          rw [show Json.ser (.obj (.cons k v tl))
              = '\x7b' :: Json.serMembers (.cons k v tl) ++ ['\x7d'] from rfl]
          simp [Json.serMembers]
      
        rw [hs]
        have hwm : Json.weightMembers (.cons k v tl) ≤ f := by
          simp [Json.weight] at hf
          omega
        have hmembers := parseMembers_ser f (.cons k v tl) rest (by simp) hwm
        rw [show Json.serMembers (.cons k v tl) ++ '\x7d' :: rest
            = '"' :: (escChars k ++ '"' :: ':' ::
              (Json.ser v ++ (Json.serMembersTail tl ++ '\x7d' :: rest))) by
          simp [Json.serMembers]] at hmembers
        simp [List.dropWhile, jsonWs, hmembers]
termination_by f v rest h1 h2 => f

theorem parseItems_ser : ∀ (f : Nat) (xs : JsonItems) (rest : Str),
    xs ≠ .nil → Json.weightItems xs ≤ f →
    parseItems f (Json.serItems xs ++ ']' :: rest) = some (xs, rest)
  | f, .nil, rest, hne, hf => absurd rfl hne
  | 0, .cons v tl, rest, _, hf => by
    simp [Json.weightItems] at hf
  | f + 1, .cons v tl, rest, _, hf => by
    have hwv : Json.weight v ≤ f := by
      simp [Json.weightItems] at hf
      omega
    have hpv := parseVal_ser f v (Json.serItemsTail tl ++ ']' :: rest) hwv
      (headIsDigit_ser_tail_items tl rest)
    rw [show Json.serItems (.cons v tl) ++ ']' :: rest
        = Json.ser v ++ (Json.serItemsTail tl ++ ']' :: rest) by
      simp [Json.serItems]]
    rw [parseItems.eq_def]
    simp only [hpv, Option.bind_eq_bind, Option.some_bind]
    rw [dropWhile_ser_tail_items]
    cases tl with
    | nil => simp [Json.serItemsTail]
    | cons v2 tl2 =>
      have hwt : Json.weightItems (.cons v2 tl2) ≤ f := by
        simp [Json.weightItems] at hf ⊢
        omega
      have hrec := parseItems_ser f (.cons v2 tl2) rest (by simp) hwt
      have hs2 : Json.serItemsTail (.cons v2 tl2) ++ ']' :: rest
          = ',' :: (Json.serItems (.cons v2 tl2) ++ ']' :: rest) := by
        simp [Json.serItemsTail, Json.serItems]
      rw [hs2]
      simp [hrec]
termination_by f xs rest h1 h2 => f

theorem parseMembers_ser : ∀ (f : Nat) (ms : JsonMembers) (rest : Str),
    ms ≠ .nil → Json.weightMembers ms ≤ f →
    parseMembers f (Json.serMembers ms ++ '\x7d' :: rest) = some (ms, rest)
  | f, .nil, rest, hne, hf => absurd rfl hne
  | 0, .cons k v tl, rest, _, hf => by
    simp [Json.weightMembers] at hf
  | f + 1, .cons k v tl, rest, _, hf => by
    have hwv : Json.weight v ≤ f := by
      simp [Json.weightMembers] at hf
      omega
    rw [show Json.serMembers (.cons k v tl) ++ '\x7d' :: rest
        = '"' :: (escChars k ++ '"' :: ':' ::
          (Json.ser v ++ (Json.serMembersTail tl ++ '\x7d' :: rest))) by
      simp [Json.serMembers]]
    rw [parseMembers.eq_def]
    have hkey := parseStrBody_esc k (':' ::
      (Json.ser v ++ (Json.serMembersTail tl ++ '\x7d' :: rest)))
    cases tl with
    | nil =>
      have hpv := parseVal_ser f v ('\x7d' :: rest) hwv rfl
      simp only [Json.serMembersTail, List.nil_append] at hkey ⊢
      simp [List.dropWhile, jsonWs, hkey, hpv]
    | cons k2 v2 tl2 =>
      have hpv := parseVal_ser f v
        (Json.serMembersTail (.cons k2 v2 tl2) ++ '\x7d' :: rest) hwv
        (headIsDigit_ser_tail_members _ rest)
      have hwt : Json.weightMembers (.cons k2 v2 tl2) ≤ f := by
        simp [Json.weightMembers] at hf ⊢
        omega
      have hrec := parseMembers_ser f (.cons k2 v2 tl2) rest (by simp) hwt
      have hs2 : Json.serMembersTail (.cons k2 v2 tl2)
          = ',' :: Json.serMembers (.cons k2 v2 tl2) := rfl
      rw [hs2] at hpv
      simp only [List.cons_append] at hpv
      simp only [hs2, List.cons_append] at hkey ⊢
      simp [List.dropWhile, jsonWs, hkey, hpv, hrec]
termination_by f ms rest h1 h2 => f
end

theorem intChars_ne_nil (n : Int) : intChars n ≠ [] := by
  unfold intChars
  split
  · simp
  · exact natChars_ne_nil n.toNat

mutual
theorem weight_le_ser : ∀ (v : Json), Json.weight v ≤ (Json.ser v).length
  | .null => by simp [Json.weight, Json.ser]
  | .bool b => by cases b <;> simp [Json.weight, Json.ser]
  | .num n => by
    simp only [Json.weight, Json.ser]
    exact List.length_pos.mpr (intChars_ne_nil n)
  | .str s => by simp_arith [Json.weight, Json.ser]
  | .arr xs => by
    cases xs with
    | nil => simp [Json.weight, Json.ser, Json.weightItems, Json.serItems]
    | cons v tl =>
      have h1 := weight_le_ser v
      have h2 := weightItems_le_serTail tl
      simp_arith [Json.weight, Json.ser, Json.weightItems, Json.serItems]
      omega
  | .obj ms => by
    cases ms with
    | nil => simp [Json.weight, Json.ser, Json.weightMembers, Json.serMembers]
    | cons k v tl =>
      have h1 := weight_le_ser v
      have h2 := weightMembers_le_serTail tl
      simp_arith [Json.weight, Json.ser, Json.weightMembers, Json.serMembers]
      omega

theorem weightItems_le_serTail : ∀ (xs : JsonItems),
    Json.weightItems xs ≤ (Json.serItemsTail xs).length
  | .nil => by simp [Json.weightItems, Json.serItemsTail]
  | .cons v tl => by
    have h1 := weight_le_ser v
    have h2 := weightItems_le_serTail tl
    simp_arith [Json.weightItems, Json.serItemsTail]
    omega

theorem weightMembers_le_serTail : ∀ (ms : JsonMembers),
    Json.weightMembers ms ≤ (Json.serMembersTail ms).length
  | .nil => by simp [Json.weightMembers, Json.serMembersTail]
  | .cons k v tl => by
    have h1 := weight_le_ser v
    have h2 := weightMembers_le_serTail tl
    simp_arith [Json.weightMembers, Json.serMembersTail]
    omega
end

/-- Parsing inverts serialization: the JSON round trip. -/
theorem jsonLoads_ser (v : Json) : jsonLoads (Json.ser v) = some v := by
  unfold jsonLoads
  have h1 : Json.weight v ≤ (Json.ser v).length + 1 :=
    le_trans (weight_le_ser v) (by omega)
  have h2 := parseVal_ser ((Json.ser v).length + 1) v [] h1 rfl
  rw [show Json.ser v ++ ([] : Str) = Json.ser v from by simp] at h2
  rw [h2]
  simp

/-! ## HTTP responses (`requests.Response`, at the boundary berserk uses) -/

/-- The slice of `requests.Response` that berserk reads: status code, status
reason phrase, url, and the response body (`text` / `content` /
`iter_lines`). -/
structure Response where
  status_code : Nat
  reason : Str
  url : Str
  body : Str
  deriving DecidableEq

/-- Modelled from `requests.Response.raise_for_status`: the message of the
`HTTPError` it raises, `none` when the status is not a 4xx/5xx error. -/
def raiseForStatusMessage (r : Response) : Option Str :=
  if 400 ≤ r.status_code ∧ r.status_code < 500 then
    some (natChars r.status_code ++ " Client Error: ".toList ++ r.reason
      ++ " for url: ".toList ++ r.url)
  else if 500 ≤ r.status_code ∧ r.status_code < 600 then
    some (natChars r.status_code ++ " Server Error: ".toList ++ r.reason
      ++ " for url: ".toList ++ r.url)
  else none

/-- `requests.Response.ok`: true iff `raise_for_status` would not raise. -/
def Response.ok (r : Response) : Bool := (raiseForStatusMessage r).isNone

/-! ## Format handlers (src/berserk/formats.py) -/

/-- Result of `FormatHandler.handle`: either one decoded value or a stream
of decoded values (each `Option`, `none` modelling a decoder exception at
that point). -/
inductive HandleOut (T : Type) where
  | single (v : Option T)
  | stream (elems : List (Option T))
  deriving DecidableEq

/-- `FormatHandler`: mime type plus the two decode operations
(src/berserk/formats.py lines 13-62). -/
structure FormatHandler (T : Type) where
  mime_type : Str
  parse : Response → Option T
  parse_stream : Response → List (Option T)

/-- The headers sent for this handler: `{"Accept": mime_type}`. -/
def FormatHandler.headers {T : Type} (fmt : FormatHandler T) : List (Str × Str) :=
  [("Accept".toList, fmt.mime_type)]

/-- `FormatHandler.handle` (formats.py lines 27-44): stream mode maps the
converter over `parse_stream`; otherwise the converter is applied to the
result of `parse`. -/
def FormatHandler.handle {T : Type} (fmt : FormatHandler T) (response : Response)
    (is_stream : Bool) (converter : T → T) : HandleOut T :=
  if is_stream then
    .stream ((fmt.parse_stream response).map (Option.map converter))
  else
    .single ((fmt.parse response).map converter)

/-- The loop body of `JsonHandler.parse_stream` (formats.py lines 89-99):
for each line of the response, if the line is non-empty, decode it with
`json.loads` and yield the result. -/
def jsonLinesStream : List Str → List (Option Json)
  | [] => []
  | l :: ls =>
    if l.isEmpty then jsonLinesStream ls
    else jsonLoads l :: jsonLinesStream ls

/-- `JsonHandler`: a mime type and the decoder class passed to
`response.json(cls=...)` (formats.py lines 65-99).  The decoder is modelled
as the whole-body decode function it induces. -/
structure JsonHandler where
  mime_type : Str
  decoder : Str → Option Json

/-- `JsonHandler.parse`: decode the whole body with the handler's decoder
(`response.json(cls=self.decoder)`). -/
def JsonHandler.parse (h : JsonHandler) (response : Response) : Option Json :=
  h.decoder response.body

/-- `JsonHandler.parse_stream`: one `json.loads` per non-empty line of the
body.  Note the handler's `decoder` field is not consulted here — the source
calls the module-level `json.loads` on each line. -/
def JsonHandler.parse_stream (h : JsonHandler) (response : Response) :
    List (Option Json) :=
  jsonLinesStream (pySplitlines response.body)

/-- View a `JsonHandler` as a `FormatHandler` (the subclass relation in the
source). -/
def JsonHandler.toFormatHandler (h : JsonHandler) : FormatHandler Json :=
  { mime_type := h.mime_type, parse := h.parse, parse_stream := h.parse_stream }

def JsonItems.ofList : List Json → JsonItems
  | [] => .nil
  | v :: vs => .cons v (JsonItems.ofList vs)

/-- Modelled from the `ndjson` package's `Decoder`: decode each non-blank
line of the document independently and collect the results in a list. -/
def ndjsonDecode (s : Str) : Option Json :=
  (((pySplitlines s).filter (fun l => !(pyStrip l).isEmpty)).mapM jsonLoads).map
    (fun vs => Json.arr (JsonItems.ofList vs))

/-- `JSON = JsonHandler(mime_type="application/json")` (formats.py). -/
def JSON : JsonHandler := ⟨"application/json".toList, jsonLoads⟩

/-- `LIJSON = JsonHandler(mime_type="application/vnd.lichess.v3+json")`. -/
def LIJSON : JsonHandler := ⟨"application/vnd.lichess.v3+json".toList, jsonLoads⟩

/-- `NDJSON = JsonHandler(mime_type="application/x-ndjson", decoder=ndjson.Decoder)`. -/
def NDJSON : JsonHandler := ⟨"application/x-ndjson".toList, ndjsonDecode⟩

/-- The loop of `PgnHandler.parse_stream` (formats.py lines 118-137):
`lines` is the accumulated buffer, `last_line` the truthiness of the
previous line (initially `True`).  A line is appended when the previous
line was truthy or the line itself is non-empty; otherwise (previous line
falsy AND current line empty) the buffer is flushed: joined with newlines,
stripped, and yielded.  At end of stream a non-empty buffer is flushed. -/
def pgnRun (lines : List Str) (last_line : Bool) : List Str → List Str
  | [] => if lines.isEmpty then [] else [pyStrip (joinNl lines)]
  | l :: rest =>
    if last_line || !l.isEmpty then pgnRun (lines ++ [l]) (!l.isEmpty) rest
    else pyStrip (joinNl lines) :: pgnRun [] (!l.isEmpty) rest

/-- `PGN = PgnHandler()`: `parse` returns the response text; `parse_stream`
splits the line stream into games with `pgnRun`. -/
def PGN : FormatHandler Str :=
  { mime_type := "application/x-chess-pgn".toList
    parse := fun r => some r.body
    parse_stream := fun r => (pgnRun [] true (pySplitlines r.body)).map some }

/-- `TEXT = TextHandler()`: `parse` returns the response text;
`parse_stream` yields the lines. -/
def TEXT : FormatHandler Str :=
  { mime_type := "text/plain".toList
    parse := fun r => some r.body
    parse_stream := fun r => (pySplitlines r.body).map some }

/-! ## The spec's wording of the PGN splitting algorithm (for the
refinement claim): an accumulating buffer and a boolean flag initialized
true; per line, append if the flag is true or the line is non-empty; flush
(join, strip, yield) and reset if the flag is false and the line is empty;
then the flag becomes the truthiness of the line; at end of stream a
non-empty buffer is flushed. -/

structure PgnSpecState where
  buffer : List Str
  flag : Bool

/-- One line of the spec's algorithm; returns the new state and the games
yielded at this step. -/
def pgnSpecStep (st : PgnSpecState) (line : Str) : PgnSpecState × List Str :=
  let buf1 := if st.flag = true ∨ line ≠ [] then st.buffer ++ [line] else st.buffer
  let flushed : Bool := decide (st.flag = false ∧ line = [])
  let out := if flushed then [pyStrip (joinNl buf1)] else []
  let buf2 := if flushed then [] else buf1
  (⟨buf2, !line.isEmpty⟩, out)

def pgnSpecRun (st : PgnSpecState) : List Str → List Str
  | [] => if st.buffer ≠ [] then [pyStrip (joinNl st.buffer)] else []
  | l :: rest =>
    (pgnSpecStep st l).2 ++ pgnSpecRun (pgnSpecStep st l).1 rest

/-- The spec's algorithm, from the initial state. -/
def pgnSpecStream (ls : List Str) : List Str := pgnSpecRun ⟨[], true⟩ ls

/-! ## Errors (src/berserk/exceptions.py) -/

/-- An underlying Python exception (e.g. a `requests.RequestException`),
identified by its `args`. -/
structure PyExc where
  args : List Str
  deriving DecidableEq

/-- `get_message` (exceptions.py lines 5-6): `e.args[0] if e.args else ""`. -/
def get_message (e : PyExc) : Str := e.args.headD []

/-- `ApiError` (exceptions.py lines 22-25): message from the wrapped
exception; `__cause__` and `error` both set to the wrapped exception. -/
structure ApiError where
  message : Str
  error : PyExc
  cause : PyExc
  deriving DecidableEq

def ApiError.ofExc (e : PyExc) : ApiError := ⟨get_message e, e, e⟩

/-- Python truthiness of a decoded JSON value (`if self.cause:`). -/
def pyTruthy : Json → Bool
  | .null => false
  | .bool b => b
  | .num n => decide (n ≠ 0)
  | .str s => !s.isEmpty
  | .arr .nil => false
  | .arr _ => true
  | .obj .nil => false
  | .obj _ => true

mutual
/-- Python `repr` of a decoded JSON value (dicts print with single-quoted
keys, `None`/`True`/`False` capitalization; string escaping inside `repr`
is not modelled — it is only evaluated on escape-free strings here). -/
def pyRepr : Json → Str
  | .null => "None".toList
  | .bool true => "True".toList
  | .bool false => "False".toList
  | .num n => intChars n
  | .str s => '\'' :: s ++ ['\'']
  | .arr xs => '[' :: pyReprItems xs ++ [']']
  | .obj ms => '\x7b' :: pyReprMembers ms ++ ['\x7d']
termination_by structural v => v

def pyReprItems : JsonItems → Str
  | .nil => []
  | .cons v tl => pyRepr v ++ pyReprItemsTail tl
termination_by structural v => v

def pyReprItemsTail : JsonItems → Str
  | .nil => []
  | .cons v tl => ',' :: ' ' :: (pyRepr v ++ pyReprItemsTail tl)
termination_by structural v => v

def pyReprMembers : JsonMembers → Str
  | .nil => []
  | .cons k v tl =>
    '\'' :: k ++ '\'' :: ':' :: ' ' :: pyRepr v ++ pyReprMembersTail tl
termination_by structural v => v

def pyReprMembersTail : JsonMembers → Str
  | .nil => []
  | .cons k v tl =>
    ',' :: ' ' :: ('\'' :: k ++ '\'' :: ':' :: ' ' :: pyRepr v ++ pyReprMembersTail tl)
termination_by structural v => v
end

/-- Python `str` of a decoded JSON value: the string itself for strings,
`repr` otherwise (this is what an f-string interpolates). -/
def pyStrOf : Json → Str
  | .str s => s
  | v => pyRepr v

/-- `ResponseError` after `__init__` (exceptions.py lines 28-60): the
stored response, the decoded cause (`None`, i.e. `null`, when the body does
not decode as JSON), and the final message. -/
structure ResponseError where
  response : Response
  cause : Json
  message : Str
  deriving DecidableEq

/-- `ResponseError.__init__`: the initial message is that of the exception
`raise_for_status` raised; the cause is the JSON-decoded body (or null);
the message is rebuilt as `"HTTP {status_code}: {reason}: {cause}"` only
when the cause is truthy. -/
def ResponseError.ofResponse (r : Response) : ResponseError :=
  let initial := (raiseForStatusMessage r).getD []
  let cause := (jsonLoads r.body).getD Json.null
  let base := "HTTP ".toList ++ natChars r.status_code ++ ": ".toList ++ r.reason
  { response := r
    cause := cause
    message :=
      if pyTruthy cause then base ++ ": ".toList ++ pyStrOf cause else initial }

/-- `ResponseError.status_code`: read through to the stored response. -/
def ResponseError.status_code (e : ResponseError) : Nat := e.response.status_code

/-- `ResponseError.reason`: read through to the stored response. -/
def ResponseError.reason (e : ResponseError) : Str := e.response.reason

/-! ## The dispatcher (src/berserk/session.py, `Requestor.request`) -/

/-- The error raised by `Requestor.request`. -/
inductive RequestError where
  | api (e : ApiError)
  | response (e : ResponseError)
  deriving DecidableEq

/-- `Requestor.request` (session.py lines 47-102).  The HTTP transport
(`self.session.request`, with URL resolution and request parameters) is
abstracted as a function from method and path to either a raised transport
exception or a response; the rest is the source's control flow: a transport
exception is wrapped in `ApiError`; a non-ok response raises
`ResponseError`; otherwise the format handler handles the response. -/
def Requestor.request {T : Type} (session : Str → Str → Except PyExc Response)
    (method path : Str) (stream : Bool) (fmt : FormatHandler T)
    (converter : T → T) : Except RequestError (HandleOut T) :=
  match session method path with
  | .error e => .error (.api (ApiError.ofExc e))
  | .ok response =>
    if response.ok then .ok (fmt.handle response stream converter)
    else .error (.response (ResponseError.ofResponse response))

/-! ## Field converters (src/berserk/utils.py `inner`,
src/berserk/models.py `Model.convert_one`) -/

/-- Python dict lookup on an association list (unique keys model a dict). -/
def dictGet {V : Type} : List (Str × V) → Str → Option V
  | [], _ => none
  | (k', v) :: d, k => if k' = k then some v else dictGet d k

/-- Python dict in-place assignment: rebind the key where it sits, append
otherwise. -/
def dictSet {V : Type} : List (Str × V) → Str → V → List (Str × V)
  | [], k, v => [(k, v)]
  | (k', v') :: d, k, v =>
    if k' = k then (k, v) :: d else (k', v') :: dictSet d k v

/-- `inner(func, *keys)`'s `convert` (utils.py lines 62-74): for each listed
key, try to rebind it to `func` of its value; a missing key is skipped
(`except KeyError: pass`).  The dict is mutated in place, so reads go
through the accumulator. -/
def inner {V : Type} (func : V → V) (keys : List Str)
    (data : List (Str × V)) : List (Str × V) :=
  keys.foldl (fun result k =>
    match dictGet result k with
    | some v => dictSet result k (func v)
    | none => result) data

/-- `Model.convert_one` (models.py lines 35-39): every key of the record
that has a registered conversion is rebound to the converted value; other
keys are untouched. -/
def convertOne {V : Type} (conversions : List (Str × (V → V)))
    (data : List (Str × V)) : List (Str × V) :=
  data.map fun p =>
    match dictGet conversions p.1 with
    | some f => (p.1, f p.2)
    | none => p

/-! ## A heap of dict objects, to state the in-place mutation and object identity properties -/

/-- A heap of Python dict objects; an address is an index. -/
structure Heap (V : Type) where
  cells : List (List (Str × V))

def Heap.get {V : Type} (h : Heap V) (r : Nat) : List (Str × V) :=
  h.cells.getD r []

def Heap.set {V : Type} (h : Heap V) (r : Nat) (d : List (Str × V)) : Heap V :=
  ⟨h.cells.set r d⟩

/-- `inner`'s `convert` run against the heap: the dict at address `r` is
read and written in place, and the function returns the same address. -/
def innerRef {V : Type} (func : V → V) (keys : List Str) (r : Nat)
    (h : Heap V) : Heap V × Nat :=
  (keys.foldl (fun h k =>
    match dictGet (h.get r) k with
    | some v => h.set r (dictSet (h.get r) k (func v))
    | none => h) h, r)

/-- `Model.convert_one` run against the heap: rebinds the convertible keys
of the dict at `r` in place and returns the same address. -/
def convertOneRef {V : Type} (conversions : List (Str × (V → V))) (r : Nat)
    (h : Heap V) : Heap V × Nat :=
  (h.set r (convertOne conversions (h.get r)), r)

/-! ## Lemmas about the JSON line stream -/

theorem jsonLinesStream_eq_filter_map (ls : List Str) :
    jsonLinesStream ls = (ls.filter (fun l => !l.isEmpty)).map jsonLoads := by
  induction ls with
  | nil => rfl
  | cons l ls ih =>
    by_cases h : l.isEmpty <;> simp [jsonLinesStream, h, ih]

/-- C9: The JSON, vendor-JSON (LIJSON), and NDJSON handlers share one
streaming decode: on every response, `parse_stream` of each of the three
handlers yields the same sequence, namely one `json.loads` result per
non-empty line of the body, with empty lines skipped (the per-handler
`decoder` field is not consulted by `parse_stream`). -/
theorem json_handlers_share_stream_decode (r : Response) :
    JSON.parse_stream r = LIJSON.parse_stream r ∧
    LIJSON.parse_stream r = NDJSON.parse_stream r ∧
    JSON.parse_stream r =
      ((pySplitlines r.body).filter (fun l => !l.isEmpty)).map jsonLoads :=
  ⟨rfl, rfl, jsonLinesStream_eq_filter_map _⟩

/-- C4, counterexample: the body `"[1,\n2]"` is one valid JSON document
spanning two lines; `JsonHandler.parse` decodes it, but `parse_stream` does
not yield a single unit equal to that parse — it decodes per line, and both
lines fail to decode. -/
theorem json_parse_stream_not_whole_body_counterexample :
    jsonLoads "[1,\n2]".toList
      = some (Json.arr (.cons (.num 1) (.cons (.num 2) .nil)))
    ∧ JSON.toFormatHandler.parse ⟨200, "OK".toList, "u".toList, "[1,\n2]".toList⟩
      = some (Json.arr (.cons (.num 1) (.cons (.num 2) .nil)))
    ∧ JSON.toFormatHandler.parse_stream
        ⟨200, "OK".toList, "u".toList, "[1,\n2]".toList⟩ = [none, none]
    ∧ JSON.toFormatHandler.parse_stream
        ⟨200, "OK".toList, "u".toList, "[1,\n2]".toList⟩
      ≠ [some (Json.arr (.cons (.num 1) (.cons (.num 2) .nil)))] := by
  refine ⟨by decide, by decide, by decide, by decide⟩

/-- C4, amended: the JSON handler's `parse_stream` decodes one document per
non-empty line.  For a body that is one valid JSON document **on a single
line**, the stream yields exactly one element equal to the parse of the
body (and `parse` agrees); a document spanning multiple lines is instead
decoded line by line. -/
theorem json_parse_stream_single_line (body : Str) (v : Json) (sc : Nat)
    (rs u : Str) (hv : jsonLoads body = some v)
    (hn : ∀ c ∈ body, isLineTerm c = false) (hb : body ≠ []) :
    JSON.toFormatHandler.parse_stream ⟨sc, rs, u, body⟩ = [some v]
    ∧ JSON.toFormatHandler.parse ⟨sc, rs, u, body⟩ = some v := by
  constructor
  · show jsonLinesStream (pySplitlines body) = [some v]
    rw [pySplitlines_single body hb hn]
    simp [jsonLinesStream, hb, hv, List.isEmpty_iff]
  · exact hv

/-- C4, witness for the amended theorem at `body = "[1, 2]"`. -/
theorem json_parse_stream_single_line_witness :
    (jsonLoads "[1, 2]".toList
        = some (Json.arr (.cons (.num 1) (.cons (.num 2) .nil)))
      ∧ (∀ c ∈ "[1, 2]".toList, isLineTerm c = false)
      ∧ "[1, 2]".toList ≠ [])
    ∧ JSON.toFormatHandler.parse_stream
        ⟨200, "OK".toList, "u".toList, "[1, 2]".toList⟩
      = [some (Json.arr (.cons (.num 1) (.cons (.num 2) .nil)))] :=
  ⟨⟨by decide, by decide, by decide⟩,
    (json_parse_stream_single_line "[1, 2]".toList
      (Json.arr (.cons (.num 1) (.cons (.num 2) .nil))) 200 "OK".toList
      "u".toList (by decide) (by decide) (by decide)).1⟩

/-! ## Lemmas about the PGN game splitter -/

/-- Running the PGN loop over a block of non-empty lines appends the block
to the buffer and leaves the flag true (no flush can happen inside). -/
theorem pgnRun_traverse (g : List Str) (hg : ∀ l ∈ g, l ≠ []) :
    ∀ (buf : List Str) (last : Bool) (rest : List Str),
    pgnRun buf last (g ++ rest)
      = pgnRun (buf ++ g) (if g.isEmpty then last else true) rest := by
  induction g with
  | nil => intro buf last rest; simp
  | cons l g ih =>
    intro buf last rest
    have hl : l ≠ [] := hg l (List.mem_cons_self l g)
    have hle : (!l.isEmpty) = true := by simp [List.isEmpty_iff, hl]
    rw [List.cons_append]
    simp only [pgnRun, hle, Bool.or_true, if_true]
    rw [ih (fun m hm => hg m (List.mem_cons_of_mem _ hm)) (buf ++ [l]) true rest]
    simp [List.append_assoc, List.isEmpty_iff, hl]

theorem pgnRun_eq_specRun : ∀ (ls : List Str) (buf : List Str) (last : Bool),
    pgnRun buf last ls = pgnSpecRun ⟨buf, last⟩ ls := by
  intro ls
  induction ls with
  | nil =>
    intro buf last
    by_cases h : buf = [] <;> simp [pgnRun, pgnSpecRun, List.isEmpty_iff, h]
  | cons l rest ih =>
    intro buf last
    by_cases hcond : (last || !l.isEmpty) = true
    · have hp : (last = true ∨ l ≠ []) := by
        cases last
        · refine Or.inr fun hl => ?_
          subst hl
          simp at hcond
        · exact Or.inl rfl
      have hflush : ¬(last = false ∧ l = []) := by
        rintro ⟨h1, h2⟩
        subst h1
        subst h2
        simp at hcond
      simp only [pgnRun, hcond, if_true]
      rw [ih]
      simp [pgnSpecRun, pgnSpecStep, hp, hflush]
    · have hlast : last = false := by
        cases last
        · rfl
        · simp at hcond
      have hl : l = [] := by
        cases hcond' : l.isEmpty
        · subst hlast; simp [hcond'] at hcond
        · simpa [List.isEmpty_iff] using hcond'
      subst hlast
      subst hl
      have hred : pgnRun buf false ([] :: rest)
          = pyStrip (joinNl buf) :: pgnRun [] false rest := by
        simp [pgnRun]
      rw [hred, ih]
      simp [pgnSpecRun, pgnSpecStep]

theorem pyStrip_joinNl_append_blank (g : List Str) (hg : g ≠ []) :
    pyStrip (joinNl (g ++ [[]])) = pyStrip (joinNl g) := by
  rw [joinNl_append g [[]] hg (by simp)]
  exact pyStrip_append_space (joinNl g) '\n' (by decide)

theorem joinNl_two_blanks (g1 g2 : List Str) (h1 : g1 ≠ []) (h2 : g2 ≠ []) :
    joinNl (g1 ++ ([[], []] ++ g2))
      = joinNl g1 ++ '\n' :: '\n' :: '\n' :: joinNl g2 := by
  rw [joinNl_append g1 ([[], []] ++ g2) h1 (by simp)]
  rw [show ([[], []] ++ g2 : List Str) = [] :: ([] :: g2) from rfl]
  rw [joinNl_cons _ _ (by simp), joinNl_cons _ _ h2]
  rfl

theorem joinNl_one_blank (g1 g2 : List Str) (h1 : g1 ≠ []) (h2 : g2 ≠ []) :
    joinNl (g1 ++ ([[]] ++ g2)) = joinNl g1 ++ '\n' :: '\n' :: joinNl g2 := by
  rw [joinNl_append g1 ([[]] ++ g2) h1 (by simp)]
  rw [show ([[]] ++ g2 : List Str) = [] :: g2 from rfl]
  rw [joinNl_cons _ _ h2]
  rfl

/-- C3: `PgnHandler.parse_stream` computes its output by exactly the
algorithm the spec describes — buffer and flag initialized true; append
when the flag is true or the line is non-empty; flush (join the buffer
with newlines, strip, yield) and reset when the flag is false and the line
is empty; after each line the flag becomes the line's truthiness; a final
non-empty buffer is flushed at end of stream. -/
theorem pgn_parse_stream_is_spec_algorithm (r : Response) :
    PGN.parse_stream r = (pgnSpecStream (pySplitlines r.body)).map some := by
  show (pgnRun [] true (pySplitlines r.body)).map some = _
  rw [pgnRun_eq_specRun]
  rfl


/-- C2, amended: `PgnHandler.parse_stream` splits games on a **double**
blank line (a blank line whose predecessor line is also blank): two games
of non-empty lines concatenated with two blank lines between them yield
exactly two strings, each game's text stripped; with a single blank line
between them, no split happens and one unit is yielded (the whole input
stripped); with no blank line the whole input is yielded stripped. -/
theorem pgn_stream_splits_on_double_blank_line (g1 g2 : List Str) (sc : Nat)
    (rs u : Str) (h1 : g1 ≠ []) (h2 : g2 ≠ [])
    (hg1e : ∀ l ∈ g1, l ≠ []) (hg2e : ∀ l ∈ g2, l ≠ [])
    (hg1t : ∀ l ∈ g1, ∀ c ∈ l, isLineTerm c = false)
    (hg2t : ∀ l ∈ g2, ∀ c ∈ l, isLineTerm c = false) :
    PGN.parse_stream ⟨sc, rs, u, joinNl g1 ++ '\n' :: '\n' :: '\n' :: joinNl g2⟩
      = [some (pyStrip (joinNl g1)), some (pyStrip (joinNl g2))]
    ∧ PGN.parse_stream ⟨sc, rs, u, joinNl g1 ++ '\n' :: '\n' :: joinNl g2⟩
      = [some (pyStrip (joinNl g1 ++ '\n' :: '\n' :: joinNl g2))]
    ∧ PGN.parse_stream ⟨sc, rs, u, joinNl g1⟩ = [some (pyStrip (joinNl g1))] := by
  have hg2last : g2.getLast h2 ≠ [] := hg2e _ (List.getLast_mem h2)
  have hg1last : g1.getLast h1 ≠ [] := hg1e _ (List.getLast_mem h1)
  have hs3 : pgnRun [] false g2 = [pyStrip (joinNl g2)] := by
    have ht := pgnRun_traverse g2 hg2e [] false []
    rw [List.append_nil, List.nil_append] at ht
    rw [ht]
    simp [pgnRun, List.isEmpty_iff, h2]
  refine ⟨?_, ?_, ?_⟩
  · have hb := joinNl_two_blanks g1 g2 h1 h2
    show (pgnRun [] true (pySplitlines _)).map some = _
    rw [← hb]
    have hterm : ∀ l ∈ g1 ++ ([[], []] ++ g2), ∀ c ∈ l, isLineTerm c = false := by
      intro l hl
      rcases List.mem_append.mp hl with h | h
      · exact hg1t l h
      · rcases List.mem_append.mp h with h | h
        · intro c hc
          simp at h
          rcases h with rfl | rfl <;> simp at hc
        · exact hg2t l h
    have hlast : (g1 ++ ([[], []] ++ g2)).getLast (by simp [h1]) ≠ [] := by
      rw [List.getLast_append' g1 ([[], []] ++ g2) (by simp [h2]),
        List.getLast_append' [[], []] g2 h2]
      exact hg2last
    rw [pySplitlines_joinNl _ (by simp [h1]) hterm hlast]
    rw [pgnRun_traverse g1 hg1e [] true ([[], []] ++ g2)]
    rw [show ([[], []] ++ g2 : List Str) = [] :: ([] :: g2) from rfl]
    have s1 : pgnRun ([] ++ g1) (if g1.isEmpty then true else true) ([] :: ([] :: g2))
        = pgnRun (g1 ++ [[]]) false ([] :: g2) := by
      simp [pgnRun]
    have s2 : pgnRun (g1 ++ [[]]) false ([] :: g2)
        = pyStrip (joinNl (g1 ++ [[]])) :: pgnRun [] false g2 := by
      simp [pgnRun]
    rw [s1, s2, hs3, pyStrip_joinNl_append_blank g1 h1]
    rfl
  · have hb := joinNl_one_blank g1 g2 h1 h2
    show (pgnRun [] true (pySplitlines _)).map some = _
    rw [← hb]
    have hterm : ∀ l ∈ g1 ++ ([[]] ++ g2), ∀ c ∈ l, isLineTerm c = false := by
      intro l hl
      rcases List.mem_append.mp hl with h | h
      · exact hg1t l h
      · rcases List.mem_append.mp h with h | h
        · intro c hc
          simp at h
          subst h
          simp at hc
        · exact hg2t l h
    have hlast : (g1 ++ ([[]] ++ g2)).getLast (by simp [h1]) ≠ [] := by
      rw [List.getLast_append' g1 ([[]] ++ g2) (by simp [h2]),
        List.getLast_append' [[]] g2 h2]
      exact hg2last
    rw [pySplitlines_joinNl _ (by simp [h1]) hterm hlast]
    rw [pgnRun_traverse g1 hg1e [] true ([[]] ++ g2)]
    rw [show ([[]] ++ g2 : List Str) = [] :: g2 from rfl]
    have s1 : pgnRun ([] ++ g1) (if g1.isEmpty then true else true) ([] :: g2)
        = pgnRun (g1 ++ [[]]) false g2 := by
      simp [pgnRun]
    rw [s1]
    have ht := pgnRun_traverse g2 hg2e (g1 ++ [[]]) false []
    rw [List.append_nil] at ht
    rw [ht]
    have hfin : pgnRun (g1 ++ [[]] ++ g2) (if g2.isEmpty then false else true) []
        = [pyStrip (joinNl (g1 ++ [[]] ++ g2))] := by
      simp [pgnRun, List.isEmpty_iff, h1, h2]
    rw [hfin]
    rw [List.append_assoc]
    simp [hb]
  · show (pgnRun [] true (pySplitlines _)).map some = _
    rw [pySplitlines_joinNl g1 h1 hg1t hg1last]
    have ht := pgnRun_traverse g1 hg1e [] true []
    rw [List.append_nil, List.nil_append] at ht
    rw [ht]
    simp [pgnRun, List.isEmpty_iff, h1]

/-- C2, witness for the amended theorem on two one-line games. -/
theorem pgn_stream_splits_on_double_blank_line_witness :
    (["1. e4 e5 1-0".toList] ≠ ([] : List Str)
      ∧ ∀ l ∈ ["1. e4 e5 1-0".toList], l ≠ [])
    ∧ PGN.parse_stream ⟨200, "OK".toList, "u".toList,
        joinNl ["1. e4 e5 1-0".toList] ++ '\n' :: '\n' :: '\n'
          :: joinNl ["1. d4 d5 1-0".toList]⟩
      = [some (pyStrip (joinNl ["1. e4 e5 1-0".toList])),
         some (pyStrip (joinNl ["1. d4 d5 1-0".toList]))] :=
  ⟨⟨by decide, by decide⟩,
    (pgn_stream_splits_on_double_blank_line ["1. e4 e5 1-0".toList]
      ["1. d4 d5 1-0".toList] 200 "OK".toList "u".toList (by decide) (by decide)
      (by decide) (by decide) (by decide) (by decide)).1⟩

/-- C2, counterexample: two PGN games concatenated with exactly one blank
line between them are NOT split — `parse_stream` yields one string (the
whole input, stripped), not two; likewise for two full tagged games, where
every blank line follows non-blank content. -/
theorem pgn_single_blank_line_does_not_split :
    PGN.parse_stream ⟨200, "OK".toList, "u".toList,
        "1. e4 e5 1-0\n\n1. d4 d5 1-0".toList⟩
      = [some ("1. e4 e5 1-0\n\n1. d4 d5 1-0".toList)]
    ∧ (PGN.parse_stream ⟨200, "OK".toList, "u".toList,
        "1. e4 e5 1-0\n\n1. d4 d5 1-0".toList⟩).length ≠ 2
    ∧ PGN.parse_stream ⟨200, "OK".toList, "u".toList,
        "[Event \"A\"]\n\n1. e4 1-0\n\n[Event \"B\"]\n\n1. d4 0-1".toList⟩
      = [some ("[Event \"A\"]\n\n1. e4 1-0\n\n[Event \"B\"]\n\n1. d4 0-1".toList)]
    ∧ (PGN.parse_stream ⟨200, "OK".toList, "u".toList,
        "[Event \"A\"]\n\n1. e4 1-0\n\n[Event \"B\"]\n\n1. d4 0-1".toList⟩).length
      ≠ 2 :=
  ⟨by decide, by decide, by decide, by decide⟩

/-! ## Error classification claims -/

theorem Response.ok_eq_false_iff (r : Response) :
    r.ok = false ↔ (400 ≤ r.status_code ∧ r.status_code < 600) := by
  unfold Response.ok raiseForStatusMessage
  split_ifs with hc hs
  · simp [Option.isNone]
    omega
  · simp [Option.isNone]
    omega
  · simp [Option.isNone]
    omega

/-- C1: for every request whose response has a client/server error status
(4xx/5xx), `Requestor.request` raises a `ResponseError` instead of decoding
the body, and the error's `status_code` and `reason` equal the response's
actual status code and reason — for every method, path, stream mode,
format handler and converter. -/
theorem requestor_raises_response_error_on_error_status {T : Type}
    (session : Str → Str → Except PyExc Response) (method path : Str)
    (stream : Bool) (fmt : FormatHandler T) (converter : T → T)
    (resp : Response) (hresp : session method path = .ok resp)
    (herr : 400 ≤ resp.status_code ∧ resp.status_code < 600) :
    Requestor.request session method path stream fmt converter
      = .error (.response (ResponseError.ofResponse resp))
    ∧ (ResponseError.ofResponse resp).status_code = resp.status_code
    ∧ (ResponseError.ofResponse resp).reason = resp.reason := by
  refine ⟨?_, rfl, rfl⟩
  unfold Requestor.request
  rw [hresp]
  simp only [show resp.ok = false from (Response.ok_eq_false_iff resp).mpr herr,
    Bool.false_eq_true, if_false]

/-- C1, witness: a 404 response with every handler field concrete. -/
theorem requestor_raises_response_error_on_error_status_witness :
    ((fun _ _ => .ok (⟨404, "Not Found".toList, "u".toList, "".toList⟩ : Response)
        : Str → Str → Except PyExc Response) "GET".toList "/api/account".toList
      = .ok ⟨404, "Not Found".toList, "u".toList, "".toList⟩
      ∧ 400 ≤ 404 ∧ 404 < 600)
    ∧ Requestor.request
        (fun _ _ => .ok ⟨404, "Not Found".toList, "u".toList, "".toList⟩)
        "GET".toList "/api/account".toList false JSON.toFormatHandler id
      = .error (.response (ResponseError.ofResponse
          ⟨404, "Not Found".toList, "u".toList, "".toList⟩)) :=
  ⟨⟨rfl, by decide, by decide⟩,
    (requestor_raises_response_error_on_error_status
      (fun _ _ => .ok ⟨404, "Not Found".toList, "u".toList, "".toList⟩)
      "GET".toList "/api/account".toList false JSON.toFormatHandler id
      ⟨404, "Not Found".toList, "u".toList, "".toList⟩ rfl
      ⟨by decide, by decide⟩).1⟩

/-- C7: for every exception raised by the HTTP transport,
`Requestor.request` raises an `ApiError` wrapping it, and the original
exception is preserved as the error's cause (and as its `error` field). -/
theorem requestor_wraps_transport_exception {T : Type}
    (session : Str → Str → Except PyExc Response) (method path : Str)
    (stream : Bool) (fmt : FormatHandler T) (converter : T → T) (e : PyExc)
    (hexc : session method path = .error e) :
    Requestor.request session method path stream fmt converter
      = .error (.api (ApiError.ofExc e))
    ∧ (ApiError.ofExc e).cause = e
    ∧ (ApiError.ofExc e).error = e := by
  refine ⟨?_, rfl, rfl⟩
  unfold Requestor.request
  rw [hexc]

/-- C7, witness: a concrete connection error. -/
theorem requestor_wraps_transport_exception_witness :
    ((fun _ _ => .error (⟨["Connection refused".toList]⟩ : PyExc)
        : Str → Str → Except PyExc Response) "GET".toList "/api/account".toList
      = .error ⟨["Connection refused".toList]⟩)
    ∧ Requestor.request (fun _ _ => .error ⟨["Connection refused".toList]⟩)
        "GET".toList "/api/account".toList false JSON.toFormatHandler id
      = .error (.api (ApiError.ofExc ⟨["Connection refused".toList]⟩)) :=
  ⟨rfl,
    (requestor_wraps_transport_exception
      (fun _ _ => .error ⟨["Connection refused".toList]⟩) "GET".toList
      "/api/account".toList false JSON.toFormatHandler id
      ⟨["Connection refused".toList]⟩ rfl).1⟩

/-- C6, counterexample: for a 404 response with body `"{}"`, the cause IS
successfully parsed from the body as JSON (the empty object), yet the
message is not extended — it is not `"HTTP 404: Not Found: {}"` (nor
`"HTTP 404: Not Found"`): because the parsed cause is falsy, the message
stays the one of the `HTTPError` from `raise_for_status`. -/
theorem response_error_message_counterexample :
    jsonLoads "\x7b\x7d".toList = some (Json.obj .nil)
    ∧ (ResponseError.ofResponse
        ⟨404, "Not Found".toList, "https://lichess.org/x".toList,
          "\x7b\x7d".toList⟩).message
      = "404 Client Error: Not Found for url: https://lichess.org/x".toList
    ∧ (ResponseError.ofResponse
        ⟨404, "Not Found".toList, "https://lichess.org/x".toList,
          "\x7b\x7d".toList⟩).message
      ≠ "HTTP 404: Not Found: \x7b\x7d".toList
    ∧ (ResponseError.ofResponse
        ⟨404, "Not Found".toList, "https://lichess.org/x".toList,
          "\x7b\x7d".toList⟩).message
      ≠ "HTTP 404: Not Found".toList :=
  ⟨by decide, by decide, by decide, by decide⟩

/-- C6, amended: the error's `cause` is the JSON-decoded response body
(null when the body is undecodable); the message is
`"HTTP {status_code}: {reason}: {cause}"` exactly when the decoded cause is
**truthy**; otherwise the message remains that of the exception
`raise_for_status` raised (`"{status} Client Error: {reason} for url:
{url}"` for 4xx, `Server Error` for 5xx). -/
theorem response_error_cause_and_message (r : Response)
    (herr : 400 ≤ r.status_code ∧ r.status_code < 600) :
    (∀ c, jsonLoads r.body = some c → (ResponseError.ofResponse r).cause = c)
    ∧ (jsonLoads r.body = none → (ResponseError.ofResponse r).cause = Json.null)
    ∧ (pyTruthy (ResponseError.ofResponse r).cause = true →
        (ResponseError.ofResponse r).message
          = "HTTP ".toList ++ natChars r.status_code ++ ": ".toList ++ r.reason
            ++ ": ".toList ++ pyStrOf (ResponseError.ofResponse r).cause)
    ∧ (pyTruthy (ResponseError.ofResponse r).cause = false →
        r.status_code < 500 →
        (ResponseError.ofResponse r).message
          = natChars r.status_code ++ " Client Error: ".toList ++ r.reason
            ++ " for url: ".toList ++ r.url)
    ∧ (pyTruthy (ResponseError.ofResponse r).cause = false →
        500 ≤ r.status_code →
        (ResponseError.ofResponse r).message
          = natChars r.status_code ++ " Server Error: ".toList ++ r.reason
            ++ " for url: ".toList ++ r.url) := by
  refine ⟨?_, ?_, ?_, ?_, ?_⟩
  · intro c hc
    simp [ResponseError.ofResponse, hc]
  · intro hc
    simp [ResponseError.ofResponse, hc]
  · intro ht
    simp only [ResponseError.ofResponse] at ht ⊢
    simp [ht]
  · intro ht hlt
    simp only [ResponseError.ofResponse] at ht ⊢
    simp only [ht, Bool.false_eq_true, if_false]
    rw [show raiseForStatusMessage r
        = some (natChars r.status_code ++ " Client Error: ".toList ++ r.reason
          ++ " for url: ".toList ++ r.url) by
      unfold raiseForStatusMessage
      rw [if_pos ⟨herr.1, hlt⟩]]
    rfl
  · intro ht hge
    simp only [ResponseError.ofResponse] at ht ⊢
    simp only [ht, Bool.false_eq_true, if_false]
    rw [show raiseForStatusMessage r
        = some (natChars r.status_code ++ " Server Error: ".toList ++ r.reason
          ++ " for url: ".toList ++ r.url) by
      unfold raiseForStatusMessage
      rw [if_neg (by omega), if_pos ⟨hge, herr.2⟩]]
    rfl

/-- C6, witness: a 404 with a truthy JSON cause gets the rebuilt message. -/
theorem response_error_cause_and_message_witness :
    (400 ≤ (404 : Nat) ∧ (404 : Nat) < 600)
    ∧ pyTruthy (ResponseError.ofResponse
        ⟨404, "Not Found".toList, "u".toList,
          "\x7b\"error\":\"no\"\x7d".toList⟩).cause = true
    ∧ (ResponseError.ofResponse
        ⟨404, "Not Found".toList, "u".toList,
          "\x7b\"error\":\"no\"\x7d".toList⟩).message
      = "HTTP ".toList
        ++ natChars (⟨404, "Not Found".toList, "u".toList,
            "\x7b\"error\":\"no\"\x7d".toList⟩ : Response).status_code
        ++ ": ".toList
        ++ (⟨404, "Not Found".toList, "u".toList,
            "\x7b\"error\":\"no\"\x7d".toList⟩ : Response).reason
        ++ ": ".toList
        ++ pyStrOf (ResponseError.ofResponse
            ⟨404, "Not Found".toList, "u".toList,
              "\x7b\"error\":\"no\"\x7d".toList⟩).cause :=
  ⟨⟨by decide, by decide⟩, by decide,
    (response_error_cause_and_message
      ⟨404, "Not Found".toList, "u".toList, "\x7b\"error\":\"no\"\x7d".toList⟩
      ⟨by decide, by decide⟩).2.2.1 (by decide)⟩

/-! ## NDJSON round trip -/

theorem isDigit_not_term {c : Char} (h : c.isDigit = true) :
    isLineTerm c = false := by
  by_contra h'
  rw [Bool.not_eq_false] at h'
  simp only [isLineTerm, Bool.or_eq_true, decide_eq_true_eq] at h'
  rcases h' with rfl | rfl <;> exact absurd h (by decide)

theorem escChar_no_term (c : Char) : ∀ d ∈ escChar c, isLineTerm d = false := by
  unfold escChar
  split_ifs with h1 h2 h3 h4 h5 <;> intro d hd <;> simp at hd
  · rcases hd with rfl | rfl <;> decide
  · rcases hd with rfl | rfl <;> decide
  · rcases hd with rfl | rfl <;> decide
  · rcases hd with rfl | rfl <;> decide
  · rcases hd with rfl | rfl <;> decide
  · subst hd
    simp [isLineTerm, h3, h4]

theorem escChars_no_term (s : Str) : ∀ d ∈ escChars s, isLineTerm d = false := by
  induction s with
  | nil => simp [escChars]
  | cons c s ih =>
    intro d hd
    rw [show escChars (c :: s) = escChar c ++ escChars s from rfl] at hd
    rcases List.mem_append.mp hd with h | h
    · exact escChar_no_term c d h
    · exact ih d h

theorem intChars_no_term (n : Int) : ∀ c ∈ intChars n, isLineTerm c = false := by
  unfold intChars
  split
  · intro c hc
    rcases List.mem_cons.mp hc with rfl | h
    · decide
    · exact isDigit_not_term (natChars_digits n.natAbs c h)
  · intro c hc
    exact isDigit_not_term (natChars_digits n.toNat c hc)

mutual
theorem ser_no_term : ∀ (v : Json), ∀ c ∈ Json.ser v, isLineTerm c = false
  | .null => by decide
  | .bool b => by cases b <;> decide
  | .num n => intChars_no_term n
  | .str s => by
    intro c hc
    rw [show Json.ser (.str s) = '"' :: escChars s ++ ['"'] from rfl] at hc
    rcases List.mem_cons.mp hc with rfl | h
    · decide
    · rcases List.mem_append.mp h with h | h
      · exact escChars_no_term s c h
      · simp at h
        subst h
        decide
  | .arr xs => by
    intro c hc
    rw [show Json.ser (.arr xs) = '[' :: Json.serItems xs ++ [']'] from rfl] at hc
    rcases List.mem_cons.mp hc with rfl | h
    · decide
    · rcases List.mem_append.mp h with h | h
      · exact serItems_no_term xs c h
      · simp at h
        subst h
        decide
  | .obj ms => by
    intro c hc
    rw [show Json.ser (.obj ms)
        = '\x7b' :: Json.serMembers ms ++ ['\x7d'] from rfl] at hc
    rcases List.mem_cons.mp hc with rfl | h
    · decide
    · rcases List.mem_append.mp h with h | h
      · exact serMembers_no_term ms c h
      · simp at h
        subst h
        decide
termination_by structural v => v

theorem serItems_no_term : ∀ (xs : JsonItems),
    ∀ c ∈ Json.serItems xs, isLineTerm c = false
  | .nil => by simp [Json.serItems]
  | .cons v tl => by
    intro c hc
    rw [show Json.serItems (.cons v tl)
        = Json.ser v ++ Json.serItemsTail tl from rfl] at hc
    rcases List.mem_append.mp hc with h | h
    · exact ser_no_term v c h
    · exact serItemsTail_no_term tl c h
termination_by structural v => v

theorem serItemsTail_no_term : ∀ (xs : JsonItems),
    ∀ c ∈ Json.serItemsTail xs, isLineTerm c = false
  | .nil => by simp [Json.serItemsTail]
  | .cons v tl => by
    intro c hc
    rw [show Json.serItemsTail (.cons v tl)
        = ',' :: (Json.ser v ++ Json.serItemsTail tl) from rfl] at hc
    rcases List.mem_cons.mp hc with rfl | h
    · decide
    · rcases List.mem_append.mp h with h | h
      · exact ser_no_term v c h
      · exact serItemsTail_no_term tl c h
termination_by structural v => v

theorem serMembers_no_term : ∀ (ms : JsonMembers),
    ∀ c ∈ Json.serMembers ms, isLineTerm c = false
  | .nil => by simp [Json.serMembers]
  | .cons k v tl => by
    have h1 := escChars_no_term k
    have h2 := ser_no_term v
    have h3 := serMembersTail_no_term tl
    intro c hc
    simp only [Json.serMembers, List.mem_cons, List.mem_append] at hc
    rcases hc with ((rfl | hc) | rfl | rfl | hc) | hc
    · decide
    · exact h1 c hc
    · decide
    · decide
    · exact h2 c hc
    · exact h3 c hc
termination_by structural v => v

theorem serMembersTail_no_term : ∀ (ms : JsonMembers),
    ∀ c ∈ Json.serMembersTail ms, isLineTerm c = false
  | .nil => by simp [Json.serMembersTail]
  | .cons k v tl => by
    have h1 := escChars_no_term k
    have h2 := ser_no_term v
    have h3 := serMembersTail_no_term tl
    intro c hc
    simp only [Json.serMembersTail, List.mem_cons, List.mem_append] at hc
    rcases hc with rfl | ((rfl | hc) | rfl | rfl | hc) | hc
    · decide
    · decide
    · exact h1 c hc
    · decide
    · decide
    · exact h2 c hc
    · exact h3 c hc
termination_by structural v => v
end

/-- C5: NDJSON round trip.  For every list of JSON records serialized one
per line, streaming-decode with the NDJSON handler yields exactly the
records in the original order, with the converter applied to each element;
and the concrete scenario: a streamed `GET` via `Requestor.request` with
the NDJSON handler on the two-line body `{"id":1}\n{"id":2}\n` yields, in
order, the two records (identity converter). -/
theorem ndjson_stream_roundtrip (vs : List Json) (conv : Json → Json)
    (sc : Nat) (rs u : Str) :
    NDJSON.toFormatHandler.handle ⟨sc, rs, u, joinNl (vs.map Json.ser)⟩ true conv
      = .stream (vs.map (fun v => some (conv v)))
    ∧ Requestor.request
        (fun _ _ => .ok ⟨200, "OK".toList, "u".toList,
          "\x7b\"id\":1\x7d\n\x7b\"id\":2\x7d\n".toList⟩)
        "GET".toList "/api/stream".toList true NDJSON.toFormatHandler id
      = .ok (.stream [some (Json.obj (.cons "id".toList (.num 1) .nil)),
          some (Json.obj (.cons "id".toList (.num 2) .nil))]) := by
  refine ⟨?_, by rfl⟩
  · show HandleOut.stream
        ((NDJSON.toFormatHandler.parse_stream _).map (Option.map conv)) = _
    show HandleOut.stream
        ((jsonLinesStream (pySplitlines (joinNl (vs.map Json.ser)))).map
          (Option.map conv)) = _
    cases vs with
    | nil => rfl
    | cons v vs' =>
      have hsplit : pySplitlines (joinNl ((v :: vs').map Json.ser))
          = (v :: vs').map Json.ser := by
        refine pySplitlines_joinNl _ (by simp) ?_ ?_
        · intro l hl
          obtain ⟨w, _, rfl⟩ := List.mem_map.mp hl
          exact ser_no_term w
        · have hmem := List.getLast_mem
            (l := (v :: vs').map Json.ser) (by simp)
          obtain ⟨w, _, hw⟩ := List.mem_map.mp hmem
          rw [← hw]
          exact ser_ne_nil w
      rw [hsplit, jsonLinesStream_eq_filter_map]
      rw [List.filter_eq_self.mpr (by
        intro l hl
        obtain ⟨w, _, rfl⟩ := List.mem_map.mp hl
        simp [List.isEmpty_iff, ser_ne_nil w])]
      rw [List.map_map, List.map_map]
      congr 1
      refine List.map_congr_left fun w _ => ?_
      show Option.map conv (jsonLoads (Json.ser w)) = some (conv w)
      rw [jsonLoads_ser w]
      rfl

/-! ## Field converter claims -/

theorem dictGet_dictSet_self {V : Type} (d : List (Str × V)) (k : Str) (v : V) :
    dictGet (dictSet d k v) k = some v := by
  induction d with
  | nil => simp [dictGet, dictSet]
  | cons p d ih =>
    obtain ⟨k', v'⟩ := p
    by_cases h : k' = k
    · subst h
      simp [dictGet, dictSet]
    · simp [dictGet, dictSet, h, ih]

theorem dictGet_dictSet_ne {V : Type} (d : List (Str × V)) (k q : Str) (v : V)
    (h : k ≠ q) : dictGet (dictSet d k v) q = dictGet d q := by
  induction d with
  | nil => simp [dictGet, dictSet, h]
  | cons p d ih =>
    obtain ⟨k', v'⟩ := p
    by_cases h' : k' = k
    · subst h'
      simp [dictGet, dictSet, h]
    · by_cases h2 : k' = q <;> simp [dictGet, dictSet, h', h2, ih, Ne.symm h]

theorem inner_cons {V : Type} (func : V → V) (k0 : Str) (ks : List Str)
    (data : List (Str × V)) :
    inner func (k0 :: ks) data
      = inner func ks (match dictGet data k0 with
          | some v => dictSet data k0 (func v)
          | none => data) := rfl

theorem inner_get_not_mem {V : Type} (func : V → V) (keys : List Str)
    (data : List (Str × V)) (k : Str) (hk : k ∉ keys) :
    dictGet (inner func keys data) k = dictGet data k := by
  induction keys generalizing data with
  | nil => rfl
  | cons k0 ks ih =>
    rw [List.mem_cons, not_or] at hk
    rw [inner_cons, ih _ hk.2]
    cases hd : dictGet data k0
    · rfl
    · exact dictGet_dictSet_ne data k0 k _ (fun h => hk.1 h.symm)

theorem inner_unchanged_when_missing {V : Type} (func : V → V)
    (keys : List Str) (data : List (Str × V))
    (h : ∀ k ∈ keys, dictGet data k = none) : inner func keys data = data := by
  induction keys with
  | nil => rfl
  | cons k0 ks ih =>
    rw [inner_cons, h k0 (List.mem_cons_self k0 ks)]
    exact ih (fun k hk => h k (List.mem_cons_of_mem k0 hk))

theorem inner_get_mem {V : Type} (func : V → V) (keys : List Str)
    (data : List (Str × V)) (k : Str) (v : V) (hnd : keys.Nodup)
    (hk : k ∈ keys) (hv : dictGet data k = some v) :
    dictGet (inner func keys data) k = some (func v) := by
  induction keys generalizing data with
  | nil => cases hk
  | cons k0 ks ih =>
    rw [inner_cons]
    rcases List.mem_cons.mp hk with rfl | hk'
    · rw [hv]
      have hnmem : k ∉ ks := (List.nodup_cons.mp hnd).1
      rw [inner_get_not_mem func ks _ k hnmem]
      exact dictGet_dictSet_self data k (func v)
    · have hk0 : k0 ≠ k := by
        rintro rfl
        exact (List.nodup_cons.mp hnd).1 hk'
      cases hd : dictGet data k0
      · exact ih _ (List.nodup_cons.mp hnd).2 hk' hv
      · refine ih _ (List.nodup_cons.mp hnd).2 hk' ?_
        rw [dictGet_dictSet_ne data k0 k _ hk0]
        exact hv

/-- C8: for every converter built by `inner` over a list of target keys and
every record, keys not listed for conversion are left untouched, and when
none of the listed keys occurs in the record — in particular for a record
containing none of the targeted fields — the record is returned
unchanged (missing keys cause no error). -/
theorem inner_untouched_and_missing_keys {V : Type} (func : V → V)
    (keys : List Str) (data : List (Str × V)) :
    (∀ k, k ∉ keys → dictGet (inner func keys data) k = dictGet data k)
    ∧ ((∀ k ∈ keys, dictGet data k = none) → inner func keys data = data) :=
  ⟨fun k hk => inner_get_not_mem func keys data k hk,
    inner_unchanged_when_missing func keys data⟩

/-- C8, witness: a converter targeting `{a, b}` applied to the record
`{"c": 1}`, which contains neither key. -/
theorem inner_untouched_and_missing_keys_witness :
    ("c".toList ∉ ["a".toList, "b".toList]
      ∧ (∀ k ∈ ["a".toList, "b".toList],
          dictGet [("c".toList, (1 : Nat))] k = none))
    ∧ dictGet (inner (fun n => n + 1) ["a".toList, "b".toList]
        [("c".toList, (1 : Nat))]) "c".toList
      = dictGet [("c".toList, (1 : Nat))] "c".toList
    ∧ inner (fun n => n + 1) ["a".toList, "b".toList]
        [("c".toList, (1 : Nat))]
      = [("c".toList, (1 : Nat))] :=
  ⟨⟨by decide, by decide⟩,
    (inner_untouched_and_missing_keys (fun n => n + 1)
      ["a".toList, "b".toList] [("c".toList, (1 : Nat))]).1
      "c".toList (by decide),
    (inner_untouched_and_missing_keys (fun n => n + 1)
      ["a".toList, "b".toList] [("c".toList, (1 : Nat))]).2 (by decide)⟩

theorem convertOne_get_none {V : Type} (conversions : List (Str × (V → V)))
    (d : List (Str × V)) (k : Str) (hk : dictGet conversions k = none) :
    dictGet (convertOne conversions d) k = dictGet d k := by
  induction d with
  | nil => rfl
  | cons p d ih =>
    obtain ⟨k0, v0⟩ := p
    by_cases h0 : k0 = k
    · subst h0
      cases hd : dictGet conversions k0
      · simp [convertOne, dictGet, hd]
      · rw [hd] at hk
        cases hk
    · cases hd : dictGet conversions k0 <;>
        simp [convertOne, dictGet, hd, h0] <;>
        simpa [convertOne] using ih

theorem heap_get_set_self {V : Type} (h : Heap V) (r : Nat)
    (d : List (Str × V)) (hr : r < h.cells.length) : (h.set r d).get r = d := by
  simp [Heap.get, Heap.set, List.getD_eq_getElem?_getD,
    List.getElem?_set_eq_of_lt _ hr]

theorem heap_get_set_ne {V : Type} (h : Heap V) (r q : Nat)
    (d : List (Str × V)) (hq : q ≠ r) : (h.set r d).get q = h.get q := by
  simp [Heap.get, Heap.set, List.getD_eq_getElem?_getD,
    List.getElem?_set_ne (fun he => hq he.symm)]

theorem innerRef_loop {V : Type} (func : V → V) (keys : List Str) (r : Nat) :
    ∀ (h : Heap V), r < h.cells.length →
    ((keys.foldl (fun h k =>
        match dictGet (h.get r) k with
        | some v => h.set r (dictSet (h.get r) k (func v))
        | none => h) h).cells.length = h.cells.length
    ∧ (keys.foldl (fun h k =>
        match dictGet (h.get r) k with
        | some v => h.set r (dictSet (h.get r) k (func v))
        | none => h) h).get r = inner func keys (h.get r)
    ∧ ∀ q, q ≠ r → (keys.foldl (fun h k =>
        match dictGet (h.get r) k with
        | some v => h.set r (dictSet (h.get r) k (func v))
        | none => h) h).get q = h.get q) := by
  induction keys with
  | nil => exact fun h hr => ⟨rfl, rfl, fun _ _ => rfl⟩
  | cons k0 ks ih =>
    intro h hr
    rw [List.foldl_cons, inner_cons]
    cases hd : dictGet (h.get r) k0 with
    | none =>
      simp only [hd]
      exact ih h hr
    | some v =>
      simp only [hd]
      have hr' : r < (h.set r (dictSet (h.get r) k0 (func v))).cells.length := by
        simp [Heap.set, hr]
      obtain ⟨l1, l2, l3⟩ := ih (h.set r (dictSet (h.get r) k0 (func v))) hr'
      refine ⟨by rw [l1]; simp [Heap.set], ?_, ?_⟩
      · rw [l2, heap_get_set_self h r _ hr]
      · intro q hq
        rw [l3 q hq, heap_get_set_ne h r q _ hq]

/-- C10: the converter built by `inner` (and `Model.convert_one`) mutates
the dict in place and returns the very same dict object: run against a heap
of dict objects, the returned address is the input address, the cell at that
address holds the converted record, every other cell is untouched, and
within the record only the listed-and-present keys are rebound (every
other key maps as before). -/
theorem inner_and_convert_one_in_place {V : Type} (func : V → V)
    (keys : List Str) (conversions : List (Str × (V → V))) (r : Nat)
    (h : Heap V) (hr : r < h.cells.length) :
    (innerRef func keys r h).2 = r
    ∧ (innerRef func keys r h).1.get r = inner func keys (h.get r)
    ∧ (∀ q, q ≠ r → (innerRef func keys r h).1.get q = h.get q)
    ∧ (∀ k, k ∉ keys →
        dictGet ((innerRef func keys r h).1.get r) k = dictGet (h.get r) k)
    ∧ (keys.Nodup → ∀ k v, k ∈ keys → dictGet (h.get r) k = some v →
        dictGet ((innerRef func keys r h).1.get r) k = some (func v))
    ∧ (convertOneRef conversions r h).2 = r
    ∧ (convertOneRef conversions r h).1.get r
        = convertOne conversions (h.get r)
    ∧ (∀ q, q ≠ r → (convertOneRef conversions r h).1.get q = h.get q)
    ∧ (∀ k, dictGet conversions k = none →
        dictGet ((convertOneRef conversions r h).1.get r) k
          = dictGet (h.get r) k) := by
  obtain ⟨l1, l2, l3⟩ := innerRef_loop func keys r h hr
  refine ⟨rfl, l2, l3, ?_, ?_, rfl, heap_get_set_self h r _ hr,
    fun q hq => heap_get_set_ne h r q _ hq, ?_⟩
  · intro k hk
    rw [show (innerRef func keys r h).1.get r = inner func keys (h.get r)
      from l2]
    exact inner_get_not_mem func keys (h.get r) k hk
  · intro hnd k v hk hv
    rw [show (innerRef func keys r h).1.get r = inner func keys (h.get r)
      from l2]
    exact inner_get_mem func keys (h.get r) k v hnd hk hv
  · intro k hk
    show dictGet ((h.set r (convertOne conversions (h.get r))).get r) k
      = dictGet (h.get r) k
    rw [heap_get_set_self h r _ hr]
    exact convertOne_get_none conversions (h.get r) k hk

/-- C10, witness: a one-cell heap holding `{"t": 5, "x": 6}`, converting
key `t`. -/
theorem inner_and_convert_one_in_place_witness :
    ((0 : Nat) < (Heap.mk [[("t".toList, (5 : Nat)), ("x".toList, 6)]]).cells.length)
    ∧ (innerRef (fun n => n + 1) ["t".toList] 0
        (Heap.mk [[("t".toList, (5 : Nat)), ("x".toList, 6)]])).2 = 0
    ∧ (innerRef (fun n => n + 1) ["t".toList] 0
        (Heap.mk [[("t".toList, (5 : Nat)), ("x".toList, 6)]])).1.get 0
      = inner (fun n => n + 1) ["t".toList]
          ((Heap.mk [[("t".toList, (5 : Nat)), ("x".toList, 6)]]).get 0) :=
  ⟨by decide,
    (inner_and_convert_one_in_place (fun n => n + 1) ["t".toList] [] 0
      (Heap.mk [[("t".toList, (5 : Nat)), ("x".toList, 6)]]) (by decide)).1,
    (inner_and_convert_one_in_place (fun n => n + 1) ["t".toList] [] 0
      (Heap.mk [[("t".toList, (5 : Nat)), ("x".toList, 6)]]) (by decide)).2.1⟩

end Berserk
